import Mathlib

/-!
# Verification of the quiver markdown-table codec and history state machine

This file gives a shallow embedding, at the level of character lists, of the
core of the `quiver` repository: the markdown table parser and serializer
(`quiver/parser.py`), the history state manager (`quiver/state.py`), the random
selector (`quiver/selector.py`) and the rollback/reset operations
(`quiver/rollback.py`).  Python strings are modelled as `List Char`, Python
`int` as `Int`, Python `dict[str, str]` as insertion-ordered association lists
with overwrite-in-place semantics, and fallible operations as `Option`/`Except`.
File system access is factored out: the functions that in Python read and write
a file here take and return the file's text.

The second half of the file proves the specified properties: the
parse/serialize round trip, the LIFO law for the history, validation and reset
behaviour, the legacy "Used" column handling, prefix preservation on
serialization, and the safety of `rollback_last`.
-/

namespace Quiver

/-- Characters strings are modelled as lists of characters. -/
abbrev Str := List Char

/-- The ASCII whitespace characters recognised by Python's `str.strip()` and by
the regex class `\s` (space, tab, newline, carriage return, vertical tab,
form feed). -/
def pyWsChar (c : Char) : Bool :=
  c = ' ' || c = '\t' || c = '\n' || c = '\r' || c = Char.ofNat 11 || c = Char.ofNat 12

/-- Drop the longest suffix whose characters satisfy `p` (helper for `strip`). -/
def dropTrail (p : Char → Bool) (l : Str) : Str :=
  ((l.reverse).dropWhile p).reverse

/-- Python `str.strip()`: remove leading and trailing whitespace. -/
def pyStrip (l : Str) : Str :=
  dropTrail pyWsChar (l.dropWhile pyWsChar)

/-- Python `str.strip(chars)`: remove leading and trailing characters drawn
from the set `cs`. -/
def stripSet (cs : List Char) (l : Str) : Str :=
  dropTrail (fun c => c ∈ cs) (l.dropWhile (fun c => c ∈ cs))

/-- Python `str.split(sep)` for a one-character separator: no collapsing of
adjacent separators, and the empty string splits to `[""]`. -/
def splitChar (c : Char) : Str → List Str
  | [] => [[]]
  | x :: xs =>
    if x = c then [] :: splitChar c xs
    else
      match splitChar c xs with
      | [] => [[x]]
      | h :: t => (x :: h) :: t

/-- Python `sep.join(xs)`. -/
def joinSep (sep : Str) : List Str → Str
  | [] => []
  | [x] => x
  | x :: y :: xs => x ++ sep ++ joinSep sep (y :: xs)

/-- Boolean string-prefix test (Python `str.startswith`). -/
def isPre : Str → Str → Bool
  | [], _ => true
  | _ :: _, [] => false
  | a :: as', b :: bs => a = b && isPre as' bs

/-- Whether `pat` occurs as a contiguous substring of `s`. -/
def containsSub (pat : Str) : Str → Bool
  | [] => isPre pat []
  | s@(_ :: rest) => isPre pat s || containsSub pat rest

/-- Python `str.split(c, 1)`: the text before the first occurrence of `c` and
the text after it. -/
def splitFirst (c : Char) : Str → Str × Str
  | [] => ([], [])
  | x :: xs =>
    if x = c then ([], xs)
    else
      let p := splitFirst c xs
      (x :: p.1, p.2)

/-- The characters strictly before the first occurrence of the substring `pat`,
or `none` when `pat` does not occur (used for the lazy group of the metadata
regex). -/
def findBefore (pat : Str) : Str → Option Str
  | [] => if isPre pat [] then some [] else none
  | s@(x :: xs) =>
    if isPre pat s then some []
    else (findBefore pat xs).map (x :: ·)

/-- Python `str.lower()` (ASCII). -/
def lowerStr (s : Str) : Str := s.map Char.toLower

/-- Insertion into a Python `dict` modelled as an association list: an existing
key keeps its position and gets the new value, a new key is appended. -/
def dictInsert (d : List (Str × Str)) (k : Str) (v : Str) : List (Str × Str) :=
  match d with
  | [] => [(k, v)]
  | (k', v') :: rest =>
    if k' = k then (k, v) :: rest else (k', v') :: dictInsert rest k v

/-- Python `dict.get`. -/
def dictGet (d : List (Str × Str)) (k : Str) : Option Str :=
  match d with
  | [] => none
  | (k', v) :: rest => if k' = k then some v else dictGet rest k

/-- `mapOpt f l` applies the fallible `f` to every element; any failure makes
the whole result fail (the semantics of a Python list comprehension whose body
may raise, surrounded by one `try`). -/
def mapOpt (f : α → Option β) : List α → Option (List β)
  | [] => some []
  | x :: xs => do
    let y ← f x
    let ys ← mapOpt f xs
    pure (y :: ys)

/-- The decimal digit character for `n < 10`. -/
def digitCh (n : Nat) : Char :=
  match n with
  | 0 => '0' | 1 => '1' | 2 => '2' | 3 => '3' | 4 => '4'
  | 5 => '5' | 6 => '6' | 7 => '7' | 8 => '8' | _ => '9'

/-- The numeric value of a decimal digit character. -/
def digitVal (c : Char) : Nat := c.toNat - 48

/-- Fuel-driven rendering of a natural number in decimal (most significant
digit first); the fuel is an upper bound ensured at the call site. -/
def natStrAux : Nat → Nat → Str
  | 0, _ => []
  | fuel + 1, n =>
    if n < 10 then [digitCh n]
    else natStrAux fuel (n / 10) ++ [digitCh (n % 10)]

/-- Decimal rendering of a natural number, as produced by Python `str`. -/
def natStr (n : Nat) : Str := natStrAux (n + 1) n

/-- Python `str` on an `int`. -/
def intStr (i : Int) : Str :=
  if i < 0 then '-' :: natStr i.natAbs else natStr i.toNat

/-- Accumulating reader for a decimal digit string with Python's underscore
rule (an underscore may only stand between two digits).  The flag records
whether the previous character was a digit. -/
def digitsValAux : Nat → Bool → Str → Option Nat
  | acc, lastDigit, [] => if lastDigit then some acc else none
  | acc, lastDigit, c :: cs =>
    if c.isDigit then digitsValAux (acc * 10 + digitVal c) true cs
    else if c = '_' then
      if lastDigit then digitsValAux acc false cs else none
    else none

/-- Parse a nonempty decimal digit string (with Python's underscore rule). -/
def digitsVal (s : Str) : Option Nat := digitsValAux 0 false s

/-- Python `int(str)`: optional surrounding whitespace, an optional sign, and
decimal digits; `none` models the `ValueError`. -/
def pyInt (s : Str) : Option Int :=
  match pyStrip s with
  | [] => none
  | c :: rest =>
    if c = '+' then (digitsVal rest).map Int.ofNat
    else if c = '-' then (digitsVal rest).map (fun n => -(n : Int))
    else (digitsVal (c :: rest)).map Int.ofNat

/-! ## The table codec (`quiver/parser.py`) -/

/-- `TABLE_ROW_PATTERN = ^\|(.+)\|$` on a newline-free line: a pipe, at least
one character, a pipe. -/
def isRow (l : Str) : Bool :=
  decide (3 ≤ l.length) && decide (l.headD ' ' = '|') && decide (l.getLastD ' ' = '|')

/-- The character class `[\s\-:|]` of `TABLE_SEPARATOR_PATTERN`. -/
def sepChar (c : Char) : Bool :=
  pyWsChar c || c = '-' || c = ':' || c = '|'

/-- `TABLE_SEPARATOR_PATTERN = ^\|[\s\-:|]+\|$` on a newline-free line. -/
def isSep (l : Str) : Bool :=
  decide (3 ≤ l.length) && decide (l.headD ' ' = '|') && decide (l.getLastD ' ' = '|')
    && ((l.drop 1).dropLast.all sepChar)

/-- Cell extraction of `_extract_table`: strip the surrounding pipes, split on
`|`, and trim each cell. -/
def rowCells (line : Str) : List Str :=
  (splitChar '|' (stripSet ['|'] line)).map pyStrip

/-- The result of `_extract_table`: the header cells and the data rows, each
carrying the cells and the running row index. -/
structure TableData where
  headers : List Str
  rows : List (List Str × Int)
deriving DecidableEq

/-- The scanning loop of `_extract_table`.  State: remaining lines, the
`in_table` flag, the headers found so far, the accumulated data rows and the
next row index.  A non-blank non-`#` non-row line after the table start ends
the scan. -/
def extractTableAux : List Str → Bool → List Str → List (List Str × Int) → Int → TableData
  | [], _, hs, rs, _ => ⟨hs, rs⟩
  | l :: ls, inT, hs, rs, idx =>
    let line := pyStrip l
    if isRow line then
      if !inT then extractTableAux ls true (rowCells line) rs idx
      else if isSep line then extractTableAux ls inT hs rs idx
      else extractTableAux ls inT hs (rs ++ [(rowCells line, idx)]) (idx + 1)
    else if inT && !line.isEmpty && !isPre ['#'] line then
      if isSep line then extractTableAux ls inT hs rs idx
      else ⟨hs, rs⟩
    else extractTableAux ls inT hs rs idx

/-- `_extract_table` applied to the lines of the file. -/
def extractTable (lines : List Str) : TableData :=
  extractTableAux lines false [] [] 0

/-- One table row (`Entry` in `quiver/parser.py`): the first cell, the
attribute mapping built from the remaining columns, and the row index. -/
structure Entry where
  content : Str
  metadata : List (Str × Str)
  row_index : Int
deriving DecidableEq

/-- A default entry used only as the out-of-range value of `List.getD`. -/
def dEntry : Entry := ⟨[], [], 0⟩

/-- The attribute dictionary of one row: for `i` in `range(1, mend)`, when
`i < len(headers)`, set `metadata[headers[i]] = cells[i]`. -/
def buildMeta (headers cells : List Str) (mend : Nat) : List (Str × Str) :=
  (List.range' 1 (mend - 1)).foldl
    (fun d i =>
      if i < headers.length then dictInsert d (headers.getD i []) (cells.getD i [])
      else d)
    []

/-- The loop body of `_extract_entries_from_table` for one row: skip a row
with fewer than one cell, otherwise build the entry; a trailing
(case-insensitive) "Used" header makes the last cell vanish from the
attributes. -/
def entryOf (headers : List Str) (r : List Str × Int) : Option Entry :=
  let hasUsed := decide (lowerStr (headers.getLastD []) = "used".data)
  let cells := r.1
  if cells.length < 1 then none
  else
    let mend := if hasUsed then cells.length - 1 else cells.length
    some ⟨cells.getD 0 [], buildMeta headers cells mend, r.2⟩

/-- `_extract_entries_from_table`: empty headers give no entries, otherwise
every row is converted by `entryOf`. -/
def extractEntries (headers : List Str) (rows : List (List Str × Int)) : List Entry :=
  if headers.isEmpty then [] else rows.filterMap (entryOf headers)

/-! ## The metadata codec (`_extract_metadata`) -/

/-- The metadata dictionary: the distinguished `history` key (`none` models a
dictionary without the key) and the remaining string-valued keys. -/
structure Metadata where
  history : Option (List Int)
  extra : List (Str × Str)
deriving DecidableEq

/-- The tokens of a history value: split on commas, keeping only tokens that
are nonempty after stripping. -/
def historyTokens (v : Str) : List Str :=
  (splitChar ',' v).filter (fun t => !(pyStrip t).isEmpty)

/-- One history token: strip whitespace and surrounding quote characters, then
parse as an integer. -/
def parseToken (t : Str) : Option Int :=
  pyInt (stripSet [Char.ofNat 39] (stripSet ['"'] (pyStrip t)))

/-- The `history` branch of `_extract_metadata`: strip the surrounding
brackets; an empty remainder is the empty history; otherwise parse every token,
and let any failure reset the whole list to empty (the legacy-format
fallback). -/
def parseHistoryValue (value : Str) : List Int :=
  if (stripSet ['[', ']'] value).isEmpty then []
  else
    match mapOpt parseToken (historyTokens (stripSet ['[', ']'] value)) with
    | some l => l
    | none => []

/-- Process one `key: value` line of the metadata block: split at the first
colon, strip key and value; the `history` key goes through the list parser,
every other key is stored as a string. -/
def processMetaLine (md : Metadata) (l : Str) : Metadata :=
  if ':' ∈ pyStrip l then
    if pyStrip (splitFirst ':' (pyStrip l)).1 = "history".data then
      { md with history :=
          (some (parseHistoryValue (pyStrip (splitFirst ':' (pyStrip l)).2))) }
    else
      { md with extra :=
          (dictInsert md.extra (pyStrip (splitFirst ':' (pyStrip l)).1)
            (pyStrip (splitFirst ':' (pyStrip l)).2)) }
  else md

/-- Positions of `'\n'` inside `w`, in descending order: the candidate split
points for the backtracking `\s*\n` of the metadata pattern (the regex engine
prefers the longest whitespace run). -/
def nlPositions (w : Str) : List Nat :=
  ((List.range w.length).filter (fun k => w.getD k ' ' = '\n')).reverse

/-- Try the candidate `\s*\n` split points in engine order; for each, the lazy
group is everything before the first following `"\n-->"`. -/
def tryNl : List Nat → Str → Option Str
  | [], _ => none
  | k :: ks, s2 =>
    match findBefore ('\n' :: "-->".data) (s2.drop (k + 1)) with
    | some g => some g
    | none => tryNl ks s2

/-- Match `METADATA_PATTERN = <!--\s*QUIVER_METADATA\s*\n(.*?)\n-->` (DOTALL)
anchored at the start of `s`, returning the lazy group. -/
def matchMetaAt (s : Str) : Option Str :=
  if isPre "<!--".data s then
    if isPre "QUIVER_METADATA".data ((s.drop 4).dropWhile pyWsChar) then
      tryNl (nlPositions ((((s.drop 4).dropWhile pyWsChar).drop 15).takeWhile pyWsChar))
        (((s.drop 4).dropWhile pyWsChar).drop 15)
    else none
  else none

/-- `re.search` of the metadata pattern: the leftmost position at which the
pattern matches wins. -/
def findMeta : Str → Option Str
  | [] => none
  | s@(_ :: rest) =>
    match matchMetaAt s with
    | some g => some g
    | none => findMeta rest

/-- `_extract_metadata`: locate the block; a missing block is an empty history;
otherwise fold the `key: value` lines over the initial `{'history': []}`. -/
def extractMetadata (content : Str) : Metadata :=
  match findMeta content with
  | none => ⟨some [], []⟩
  | some grp => (splitChar '\n' (pyStrip grp)).foldl processMetaLine ⟨some [], []⟩

/-! ## The document model and `parse_file` / `serialize_file` -/

/-- `ParsedFile`: entries, headers, the metadata dictionary, and the raw text
the file was parsed from (used by `serialize_file` to recover the pre-table
prefix). -/
structure ParsedFile where
  entries : List Entry
  headers : List Str
  metadata : Metadata
  raw_content : Str
deriving DecidableEq

/-- `parse_file` with the file system factored out: parse the given text. -/
def parseContent (content : Str) : ParsedFile :=
  let td := extractTable (splitChar '\n' content)
  { entries := extractEntries td.headers td.rows
    headers := td.headers
    metadata := extractMetadata content
    raw_content := content }

/-- The pre-table scan of `serialize_file`: keep original lines until the first
table row, dropping lines whose stripped form starts with `<!--`. -/
def takePre : List Str → List Str
  | [] => []
  | l :: ls =>
    if isRow (pyStrip l) then []
    else if isPre "<!--".data (pyStrip l) then takePre ls
    else l :: takePre ls

/-- The serialized `history` line. -/
def histLine (h : List Int) : Str :=
  if h.isEmpty then "history: []".data
  else "history: [".data ++ joinSep ", ".data (h.map intStr) ++ "]".data

/-- Python truthiness of the metadata dictionary (it always holds at least the
`history` key after a parse). -/
def metaIsEmpty (m : Metadata) : Bool :=
  m.history.isNone && m.extra.isEmpty

/-- The headers emitted on serialization: every (case-insensitive) "Used"
header is dropped. -/
def outHeaders (pf : ParsedFile) : List Str :=
  pf.headers.filter (fun h => !decide (lowerStr h = "used".data))

/-- `'| ' + ' | '.join(cells) + ' |'`: the serialized form of one table row. -/
def mkRowStr (cells : List Str) : Str :=
  "| ".data ++ joinSep " | ".data cells ++ " |".data

/-- `'|' + '|'.join(['---' ...]) + '|'`: the emitted dash separator row. -/
def sepRowOf (headers : List Str) : Str :=
  "|".data ++ joinSep "|".data (headers.map (fun _ => "---".data)) ++ "|".data

/-- The serialized form of one data row: the content cell followed by the
attribute value (default empty) of every emitted header after the first. -/
def rowLine (headers : List Str) (e : Entry) : Str :=
  mkRowStr (e.content :: (headers.drop 1).map (fun h => (dictGet e.metadata h).getD []))

/-- The lines of `serialize_file`: the kept prefix (with a blank line appended
after a non-blank final prefix line), the header row, the dash separator, one
row per entry, and the metadata block when the dictionary is non-empty. -/
def serializeLines (pf : ParsedFile) : List Str :=
  let pre := takePre (splitChar '\n' pf.raw_content)
  let lines1 := if pre.isEmpty then []
    else if (pyStrip (pre.getLastD [])).isEmpty then pre else pre ++ [[]]
  let headers := outHeaders pf
  let dataRows := pf.entries.map (rowLine headers)
  let metaLines := if metaIsEmpty pf.metadata then []
    else
      [[], "<!-- QUIVER_METADATA".data] ++
        (match pf.metadata.history with
         | some h => [histLine h]
         | none => []) ++ ["-->".data]
  lines1 ++ [mkRowStr headers, sepRowOf headers] ++ dataRows ++ metaLines

/-- `serialize_file`: join the lines with newlines. -/
def serializeFile (pf : ParsedFile) : Str :=
  joinSep ['\n'] (serializeLines pf)

/-! ## The state manager (`quiver/state.py`) -/

/-- `add_to_history`: ensure the key exists, then append the entry's row index
at the tail (most recent). -/
def add_to_history (pf : ParsedFile) (e : Entry) : ParsedFile :=
  let h := (pf.metadata.history).getD []
  { pf with metadata := { pf.metadata with history := some (h ++ [e.row_index]) } }

/-- `remove_from_history`: pop and return the tail of the history, or `none`
when the key is missing or the list is empty. -/
def remove_from_history (pf : ParsedFile) : Option Int × ParsedFile :=
  match pf.metadata.history with
  | none => (none, pf)
  | some hs =>
    if hs.isEmpty then (none, pf)
    else (some (hs.getLastD 0),
      { pf with metadata := { pf.metadata with history := some hs.dropLast } })

/-- `find_entry_by_index`: linear scan for the first entry with the given row
index. -/
def find_entry_by_index (pf : ParsedFile) (i : Int) : Option Entry :=
  pf.entries.find? (fun e => decide (e.row_index = i))

/-- The range test `0 <= idx < num_entries` of `validate_history`. -/
def inRangeIdx (n : Nat) (i : Int) : Bool :=
  decide (0 ≤ i ∧ i < (n : Int))

/-- `validate_history`: silently drop every history index outside
`[0, len(entries))`; a document without the key is returned unchanged. -/
def validate_history (pf : ParsedFile) : ParsedFile :=
  match pf.metadata.history with
  | none => pf
  | some h =>
    { pf with metadata :=
        { pf.metadata with history := some (h.filter (inRangeIdx pf.entries.length)) } }

/-! ## The selector (`quiver/selector.py`) -/

/-- `Entry.is_used`: the row index occurs in the history. -/
def is_used (e : Entry) (history : List Int) : Bool :=
  decide (e.row_index ∈ history)

/-- `get_available_entries`: the entries not marked used. -/
def get_available_entries (entries : List Entry) (history : List Int) : List Entry :=
  entries.filter (fun e => !is_used e history)

/-- `select_random`: `none` on an empty list, otherwise the element at the
index drawn by the randomness source, here passed in as `r` (any value of `r`
is a possible behaviour of `random.choice`). -/
def select_random (r : Nat) (entries : List Entry) : Option Entry :=
  if entries.isEmpty then none
  else some (entries.getD (r % entries.length) dEntry)

/-- `select_random_available = select_random ∘ get_available_entries`. -/
def select_random_available (r : Nat) (entries : List Entry) (history : List Int) :
    Option Entry :=
  select_random r (get_available_entries entries history)

/-! ## Rollback and reset (`quiver/rollback.py`) -/

/-- `rollback_last` with the file system factored out: parse the text, validate
the history, pop the tail, resolve it to an entry, and return the entry
together with the re-serialized (persisted) text; an empty history gives
`ok none`; a popped index with no matching entry is the `ValueError`. -/
def rollback_last (content : Str) : Except String (Option (Entry × Str)) :=
  let parsed := validate_history (parseContent content)
  match remove_from_history parsed with
  | (none, _) => .ok none
  | (some i, pf') =>
    match find_entry_by_index pf' i with
    | none => .error "entry index found in history but not in entries list"
    | some e => .ok (some (e, serializeFile pf'))

/-- `reset_all` on an in-memory document: count the distinct prior history
indices, then clear the history (the parse and save around it are modelled
separately). -/
def reset_all_doc (pf : ParsedFile) : Nat × ParsedFile :=
  let cnt := ((pf.metadata.history).getD []).dedup.length
  (cnt, { pf with metadata := { pf.metadata with history := some [] } })

/-- `reset_all` with the file system factored out: parse, reset, serialize. -/
def reset_all (content : Str) : Nat × Str :=
  let p := reset_all_doc (parseContent content)
  (p.1, serializeFile p.2)

/-! ## Iterated history operations (for the LIFO law) -/

/-- `markSelected` iterated: fold `add_to_history` over a list of entries. -/
def marks (pf : ParsedFile) (es : List Entry) : ParsedFile :=
  es.foldl add_to_history pf

/-- `popLast` iterated `n` times, collecting the returned values in order. -/
def pops : Nat → ParsedFile → List (Option Int) × ParsedFile
  | 0, pf => ([], pf)
  | n + 1, pf =>
    let p := remove_from_history pf
    let q := pops n p.2
    (p.1 :: q.1, q.2)

/-! ## The well-formedness predicate for the round trip -/

/-- One padded cell as it sits between pipes in a serialized row. -/
def padCell (c : Str) : Str := ' ' :: c ++ [' ']

/-- Pair each row's cells with consecutive indices starting at `i`. -/
def enumFrom (i : Int) : List (List Str) → List (List Str × Int)
  | [] => []
  | r :: rs => (r, i) :: enumFrom (i + 1) rs

/-- No HTML-comment opener occurs in the string (so the text cannot fake the
start of a metadata block). -/
def cleanStr (s : Str) : Bool := !containsSub "<!--".data s

/-- A well-formed input text for the round-trip law: it contains a table; no
header is the legacy "Used" column (the spec notes Used never round-trips) and
headers are distinct; every data row is rectangular (exactly one cell per
header) and visibly a data row (some character outside the separator class);
and neither the kept prefix lines nor any header or cell contains the
HTML-comment opener `<!--`. -/
def wellFormedB (content : Str) : Bool :=
  let lines := splitChar '\n' content
  let td := extractTable lines
  lines.any (fun l => isRow (pyStrip l))
  && td.headers.all (fun h => !decide (lowerStr h = "used".data) && cleanStr h)
  && decide td.headers.Nodup
  && td.rows.all (fun r =>
       decide (r.1.length = td.headers.length)
       && r.1.any (fun cell => cell.any (fun ch => !sepChar ch))
       && r.1.all cleanStr)
  && (takePre lines).all cleanStr

/-! ## Concrete fixtures used by witnesses -/

/-- A three-entry document whose history holds the out-of-range index 5. -/
def pfW : ParsedFile :=
  { entries := [⟨"a".data, [], 0⟩, ⟨"b".data, [], 1⟩, ⟨"c".data, [], 2⟩]
    headers := ["Content".data]
    metadata := ⟨some [5], []⟩
    raw_content := [] }

/-- A single concrete entry with row index 0. -/
def entW : Entry := ⟨"a".data, [], 0⟩

/-- The row indices of the listed rows are consecutive integers starting at
`base` (the shape `_extract_table` produces with `base = 0`). -/
def consecFrom : Int → List (List Str × Int) → Prop
  | _, [] => True
  | i, r :: rs => r.2 = i ∧ consecFrom (i + 1) rs

/-- A small complete document used as a concrete witness input. -/
def tW : Str := ("| A |\n|---|\n| x |\n| y |\n\n<!-- QUIVER_METADATA\nhistory: [1, 0]\n-->").data

/-- An empty document whose last header is the legacy "Used" column. -/
def pfU : ParsedFile :=
  { entries := [], headers := ["Content".data, "Used".data]
    metadata := ⟨some [], []⟩, raw_content := [] }

/-! # Proofs

## The LIFO law (C2) -/

theorem marks_history (es : List Entry) (pf : ParsedFile) (h : List Int)
    (hh : pf.metadata.history = some h) :
    (marks pf es).metadata.history = some (h ++ es.map (·.row_index)) := by
  induction es generalizing pf h with
  | nil => simpa [marks] using hh
  | cons e es ih =>
    have h1 : (add_to_history pf e).metadata.history = some (h ++ [e.row_index]) := by
      simp [add_to_history, hh]
    have h2 := ih (add_to_history pf e) (h ++ [e.row_index]) h1
    simpa [marks, List.append_assoc] using h2

theorem pops_reverse (n : Nat) (pf : ParsedFile) (h : List Int)
    (hh : pf.metadata.history = some h) (hn : n ≤ h.length) :
    (pops n pf).1 = (h.reverse.take n).map some := by
  induction n generalizing pf h with
  | zero => simp [pops]
  | succ n ih =>
    rcases List.eq_nil_or_concat h with rfl | ⟨h', a, rfl⟩
    · simp at hn
    · have hrm : remove_from_history pf
          = (some a, { pf with metadata := { pf.metadata with history := some h' } }) := by
        simp [remove_from_history, hh]
      have hn' : n ≤ h'.length := by simp at hn; omega
      have ihx := ih { pf with metadata := { pf.metadata with history := some h' } } h' rfl hn'
      simp [pops, hrm, ihx, List.reverse_append]

/-- C2: for any document and any sequence of N `markSelected`
(`add_to_history`) calls followed by N `popLast` (`remove_from_history`) calls,
the pops return the row indices of the marked entries in exact reverse order of
marking. -/
theorem claim_C2_lifo (pf : ParsedFile) (es : List Entry) :
    (pops es.length (marks pf es)).1 = es.reverse.map (fun e => some e.row_index) := by
  cases es with
  | nil => simp [marks, pops]
  | cons e es =>
    have h1 : (add_to_history pf e).metadata.history
        = some ((pf.metadata.history.getD []) ++ [e.row_index]) := by
      simp [add_to_history]
    have h2 := marks_history es (add_to_history pf e) _ h1
    have hm : (marks pf (e :: es)).metadata.history
        = some ((pf.metadata.history.getD []) ++ (e :: es).map (·.row_index)) := by
      simp only [marks, List.foldl_cons] at h2 ⊢
      simpa [List.append_assoc] using h2
    have hn : (e :: es).length
        ≤ ((pf.metadata.history.getD []) ++ (e :: es).map (·.row_index)).length := by
      simp
    have hp := pops_reverse (e :: es).length _ _ hm hn
    rw [hp, List.reverse_append]
    have hlen : ((e :: es).map (·.row_index)).reverse.length = (e :: es).length := by simp
    rw [List.take_left' hlen, List.map_reverse, List.map_reverse, List.map_map]
    rfl

/-! ## Validation (C3) -/

theorem count_filter_eq {α : Type} [DecidableEq α] (p : α → Bool) (a : α) (l : List α) :
    (l.filter p).count a = if p a then l.count a else 0 := by
  induction l with
  | nil => simp
  | cons x xs ih =>
    by_cases hx : p x
    · rcases eq_or_ne x a with rfl | hxa
      · simp [List.filter_cons, hx, List.count_cons, ih]
      · simp [List.filter_cons, hx, List.count_cons, hxa, ih]
    · rcases eq_or_ne x a with rfl | hxa
      · simp [List.filter_cons, hx, List.count_cons, ih]
      · simp [List.filter_cons, hx, List.count_cons, hxa, ih]

/-- C3: `validate_history` keeps exactly the in-range indices, preserving their
order (it is `List.filter` of the range test) and multiplicity (the counts),
leaves the entries untouched, and is total (it never raises). -/
theorem claim_C3_validate (pf : ParsedFile) (h : List Int)
    (hh : pf.metadata.history = some h) :
    (validate_history pf).metadata.history = some (h.filter (inRangeIdx pf.entries.length))
    ∧ (validate_history pf).entries = pf.entries
    ∧ ∀ i : Int, (h.filter (inRangeIdx pf.entries.length)).count i
        = if inRangeIdx pf.entries.length i then h.count i else 0 := by
  refine ⟨by simp [validate_history, hh], by simp [validate_history, hh],
    fun i => count_filter_eq _ _ _⟩

/-- Witness for C3, including the spec's concrete scenario: three entries and
`history = [5]` validate to `history = []`. -/
theorem claim_C3_validate_witness :
    pfW.metadata.history = some [5] ∧ pfW.entries.length = 3
    ∧ (validate_history pfW).metadata.history = some [] := by
  refine ⟨rfl, rfl, ?_⟩
  have h := (claim_C3_validate pfW [5] rfl).1
  exact h.trans (by decide)

/-! ## Malformed history tokens (C4) -/

theorem mapOpt_eq_none {α β : Type} (f : α → Option β) (l : List α) (x : α)
    (hx : x ∈ l) (hfx : f x = none) : mapOpt f l = none := by
  induction l with
  | nil => cases hx
  | cons y ys ih =>
    rcases List.mem_cons.mp hx with rfl | hx
    · simp [mapOpt, hfx]
    · cases hfy : f y
      · simp [mapOpt, hfy]
      · simp [mapOpt, hfy, ih hx]

/-- C4: if any token of the history value fails integer parsing, the whole
history parses to the empty list (never a partial result); the function is
total, so no exception reaches the caller of `parse`. -/
theorem claim_C4_malformed (value : Str)
    (hfail : ∃ t ∈ historyTokens (stripSet ['[', ']'] value), parseToken t = none) :
    parseHistoryValue value = [] := by
  obtain ⟨t, ht, hfx⟩ := hfail
  unfold parseHistoryValue
  by_cases hv : (stripSet ['[', ']'] value).isEmpty
  · simp [hv]
  · simp [hv, mapOpt_eq_none parseToken _ t ht hfx]

/-- Witness for C4: the value `[1, oops]` has a malformed token and parses to
the empty history. -/
theorem claim_C4_malformed_witness : parseHistoryValue "[1, oops]".data = [] :=
  claim_C4_malformed _ ⟨" oops".data, by decide, by decide⟩

/-! ## Exhaustion (C5) -/

/-- C5: whenever the history contains every row index of the entries, the
available list is empty and `select_random_available` returns `none` for every
draw of the randomness source — an `Option`-none result, not an exception. -/
theorem claim_C5_exhaustion (entries : List Entry) (history : List Int) (r : Nat)
    (hall : ∀ e ∈ entries, e.row_index ∈ history) :
    select_random_available r entries history = none := by
  have hav : get_available_entries entries history = [] := by
    simp only [get_available_entries, List.filter_eq_nil_iff]
    intro e he
    simp [is_used, hall e he]
  simp [select_random_available, hav, select_random]

/-- Witness for C5: one entry with row index 0 and history `[0]`. -/
theorem claim_C5_exhaustion_witness : select_random_available 5 [entW] [0] = none :=
  claim_C5_exhaustion [entW] [0] 5 (by decide)

/-! ## Reset (C6) -/

/-- C6: `reset_all` clears the history (so afterwards every entry is
available), returns the number of distinct indices of the prior history, and
leaves every entry — in particular its attributes — unchanged, for any prior
document state including duplicate or out-of-range indices. -/
theorem claim_C6_reset (pf : ParsedFile) :
    (reset_all_doc pf).2.metadata.history = some []
    ∧ (reset_all_doc pf).1 = ((pf.metadata.history).getD []).toFinset.card
    ∧ (reset_all_doc pf).2.entries = pf.entries
    ∧ get_available_entries (reset_all_doc pf).2.entries
        (((reset_all_doc pf).2.metadata.history).getD []) = (reset_all_doc pf).2.entries := by
  refine ⟨rfl, ?_, rfl, ?_⟩
  · simp [reset_all_doc, List.card_toFinset]
  · simp [reset_all_doc, get_available_entries, is_used]

/-! ## Row indices are positions (C10) and the rollback equation (C9) -/

theorem splitChar_ne_nil (c : Char) (s : Str) : splitChar c s ≠ [] := by
  cases s with
  | nil => simp [splitChar]
  | cons x xs =>
    simp only [splitChar]
    by_cases hx : x = c
    · simp [hx]
    · simp only [hx, if_false]
      cases splitChar c xs <;> simp

theorem rowCells_ne_nil (line : Str) : rowCells line ≠ [] := by
  simp [rowCells, splitChar_ne_nil]

theorem consecFrom_append_one (base : Int) (rs : List (List Str × Int)) (c : List Str)
    (hc : consecFrom base rs) :
    consecFrom base (rs ++ [(c, base + rs.length)]) := by
  induction rs generalizing base with
  | nil => simp [consecFrom]
  | cons r rs ih =>
    obtain ⟨h1, h2⟩ := hc
    refine ⟨h1, ?_⟩
    have := ih (base + 1) h2
    simpa [add_assoc, add_comm, add_left_comm] using this

theorem extractTableAux_rows (ls : List Str) : ∀ (inT : Bool) (hs : List Str)
    (rs : List (List Str × Int)) (idx base : Int),
    consecFrom base rs → idx = base + rs.length →
    consecFrom base (extractTableAux ls inT hs rs idx).rows
    ∧ (∀ r ∈ (extractTableAux ls inT hs rs idx).rows,
        r ∈ rs ∨ ∃ line, r.1 = rowCells line) := by
  induction ls with
  | nil =>
    intro inT hs rs idx base hc _
    exact ⟨hc, fun r hr => Or.inl hr⟩
  | cons l ls ih =>
    intro inT hs rs idx base hc hi
    simp only [extractTableAux]
    by_cases h1 : isRow (pyStrip l)
    · simp only [h1, if_true]
      cases inT with
      | false =>
        simpa using ih true (rowCells (pyStrip l)) rs idx base hc hi
      | true =>
        by_cases h2 : isSep (pyStrip l)
        · simpa [h2] using ih true hs rs idx base hc hi
        · have hc' : consecFrom base (rs ++ [(rowCells (pyStrip l), idx)]) := by
            rw [hi]; exact consecFrom_append_one base rs _ hc
          have hi' : idx + 1 = base + (rs ++ [(rowCells (pyStrip l), idx)]).length := by
            simp [hi]; omega
          have hres := ih true hs _ (idx + 1) base hc' hi'
          refine ⟨by simpa [h2] using hres.1, ?_⟩
          intro r hr
          simp only [h2] at hr ⊢
          rcases hres.2 r (by simpa using hr) with hin | hex
          · rcases List.mem_append.mp hin with hin | hin
            · exact Or.inl hin
            · simp at hin
              exact Or.inr ⟨pyStrip l, by rw [hin]⟩
          · exact Or.inr hex
    · simp only [h1, if_false]
      by_cases h2 : (inT && !(pyStrip l).isEmpty && !isPre ['#'] (pyStrip l)) = true
      · simp only [h2, if_true]
        by_cases h3 : isSep (pyStrip l)
        · simpa [h3] using ih inT hs rs idx base hc hi
        · simp only [h3, if_false]
          exact ⟨hc, fun r hr => Or.inl hr⟩
      · simp only [h2, if_false]
        exact ih inT hs rs idx base hc hi

theorem extractTable_rows (lines : List Str) :
    consecFrom 0 (extractTable lines).rows
    ∧ ∀ r ∈ (extractTable lines).rows, r.1 ≠ [] := by
  have h := extractTableAux_rows lines false [] [] 0 0 trivial (by simp)
  refine ⟨h.1, fun r hr => ?_⟩
  rcases h.2 r hr with hin | ⟨line, hline⟩
  · cases hin
  · rw [hline]; exact rowCells_ne_nil line

theorem filterMap_entries (f : (List Str × Int) → Option Entry)
    (hf : ∀ r : List Str × Int, r.1 ≠ [] → ∃ e, f r = some e ∧ e.row_index = r.2) :
    ∀ (rows : List (List Str × Int)) (base : Int), consecFrom base rows →
    (∀ r ∈ rows, r.1 ≠ []) →
    (rows.filterMap f).length = rows.length
    ∧ ∀ k, k < rows.length → ((rows.filterMap f).getD k dEntry).row_index = base + k := by
  intro rows
  induction rows with
  | nil => intro base _ _; exact ⟨rfl, fun k hk => absurd hk (by simp)⟩
  | cons r rows ih =>
    intro base hc hne
    obtain ⟨e, he, hei⟩ := hf r (hne r (by simp))
    have ih' := ih (base + 1) hc.2 (fun r' hr' => hne r' (by simp [hr']))
    rw [List.filterMap_cons, he]
    refine ⟨by simpa using ih'.1, fun k hk => ?_⟩
    cases k with
    | zero => simpa [hei] using hc.1
    | succ k =>
      have := ih'.2 k (by simpa using Nat.lt_of_succ_lt_succ hk)
      rw [List.getD_cons_succ, this]
      push_cast
      ring

theorem entryOf_of_ne_nil (headers : List Str) (r : List Str × Int) (hr : r.1 ≠ []) :
    ∃ e, entryOf headers r = some e ∧ e.row_index = r.2 := by
  have hlen : ¬(r.1.length < 1) := by
    cases hcl : r.1 with
    | nil => exact absurd hcl hr
    | cons a l => simp
  refine ⟨⟨r.1.getD 0 [],
    buildMeta headers r.1
      (if decide (lowerStr (headers.getLastD []) = "used".data)
       then r.1.length - 1 else r.1.length), r.2⟩, ?_, rfl⟩
  simp [entryOf, hlen]

theorem parse_row_index (content : Str) :
    ∀ k, k < (parseContent content).entries.length →
    ((parseContent content).entries.getD k dEntry).row_index = (k : Int) := by
  intro k hk
  by_cases hH : (extractTable (splitChar '\n' content)).headers.isEmpty
  · simp only [parseContent, extractEntries, hH, if_true] at hk
    simp at hk
  · have hrows := extractTable_rows (splitChar '\n' content)
    have hfm := filterMap_entries (entryOf (extractTable (splitChar '\n' content)).headers)
      (fun r hr => entryOf_of_ne_nil _ r hr)
      (extractTable (splitChar '\n' content)).rows 0 hrows.1 hrows.2
    have hH' : (extractTable (splitChar '\n' content)).headers.isEmpty = false := by
      simpa using hH
    have hent : (parseContent content).entries
        = ((extractTable (splitChar '\n' content)).rows).filterMap
            (entryOf (extractTable (splitChar '\n' content)).headers) := by
      simp [parseContent, extractEntries, hH']
    rw [hent] at hk ⊢
    have := hfm.2 k (by rw [← hfm.1]; exact hk)
    simpa using this

theorem parse_entries_len (content : Str) :
    (parseContent content).entries.length
      = if (extractTable (splitChar '\n' content)).headers.isEmpty then 0
        else (extractTable (splitChar '\n' content)).rows.length := by
  by_cases hH : (extractTable (splitChar '\n' content)).headers.isEmpty
  · simp [parseContent, extractEntries, hH]
  · have hrows := extractTable_rows (splitChar '\n' content)
    have hfm := filterMap_entries (entryOf (extractTable (splitChar '\n' content)).headers)
      (fun r hr => entryOf_of_ne_nil _ r hr)
      (extractTable (splitChar '\n' content)).rows 0 hrows.1 hrows.2
    have hH' : (extractTable (splitChar '\n' content)).headers.isEmpty = false := by
      simpa using hH
    simp only [parseContent, extractEntries, hH', Bool.false_eq_true, if_false]
    simpa using hfm.1

theorem find_by_consecutive (es : List Entry) (base i : Int)
    (hidx : ∀ k, k < es.length → (es.getD k dEntry).row_index = base + k)
    (h1 : base ≤ i) (h2 : i < base + es.length) :
    es.find? (fun e => decide (e.row_index = i)) = some (es.getD (i - base).toNat dEntry) := by
  induction es generalizing base with
  | nil => simp at h2; omega
  | cons e es ih =>
    have he : e.row_index = base := by simpa using hidx 0 (by simp)
    by_cases hib : i = base
    · subst hib
      have hd : decide (e.row_index = i) = true := by simp [he]
      simp [List.find?, hd, show (i - i).toNat = 0 by omega]
    · have hd : decide (e.row_index = i) = false := by simp [he]; omega
      have hidx' : ∀ k, k < es.length → (es.getD k dEntry).row_index = (base + 1) + k := by
        intro k hk
        have := hidx (k + 1) (by simpa using Nat.succ_lt_succ hk)
        rw [List.getD_cons_succ] at this
        rw [this]; push_cast; ring
      have hrec := ih (base + 1) hidx' (by omega) (by simp at h2 ⊢; omega)
      have htn : (i - base).toNat = (i - (base + 1)).toNat + 1 := by omega
      simp only [List.find?, hd]
      rw [hrec, htn, List.getD_cons_succ]

theorem processMetaLine_isSome (md : Metadata) (l : Str)
    (h : md.history.isSome) : (processMetaLine md l).history.isSome := by
  unfold processMetaLine
  by_cases hc : ':' ∈ pyStrip l
  · simp only [hc, if_true]
    by_cases hk : pyStrip (splitFirst ':' (pyStrip l)).1 = "history".data
    · simp [hk]
    · simp [hk, h]
  · simp [hc, h]

theorem extractMetadata_isSome (content : Str) :
    ∃ H, (extractMetadata content).history = some H := by
  unfold extractMetadata
  cases hf : findMeta content with
  | none => exact ⟨[], rfl⟩
  | some grp =>
    have : ∀ (lines : List Str) (md : Metadata), md.history.isSome →
        ((lines.foldl processMetaLine md).history).isSome := by
      intro lines
      induction lines with
      | nil => intro md h; exact h
      | cons l ls ih => intro md h; exact ih _ (processMetaLine_isSome md l h)
    have hs := this (splitChar '\n' (pyStrip grp)) ⟨some [], []⟩ rfl
    exact Option.isSome_iff_exists.mp hs

theorem validate_entries (pf : ParsedFile) : (validate_history pf).entries = pf.entries := by
  unfold validate_history
  cases pf.metadata.history <;> rfl

theorem validate_history_some (pf : ParsedFile) (H : List Int)
    (h : pf.metadata.history = some H) :
    (validate_history pf).metadata.history
      = some (H.filter (inRangeIdx pf.entries.length)) := by
  simp [validate_history, h]

theorem getLastD_mem {α : Type} (l : List α) (d : α) (h : l ≠ []) : l.getLastD d ∈ l := by
  rcases List.eq_nil_or_concat l with rfl | ⟨l', a, rfl⟩
  · exact absurd rfl h
  · simp

/-- The closed-form behaviour of `rollback_last`: parse, validate; an empty
validated history returns `ok none`; otherwise the tail index is popped, it
always resolves to the entry sitting at that position, and the document with
the shortened history is re-serialized.  The `ValueError` branch is never
taken. -/
theorem rollback_last_eq (content : Str) :
    rollback_last content =
      (let pf := validate_history (parseContent content)
       let h := (pf.metadata.history).getD []
       if h.isEmpty then Except.ok none
       else Except.ok (some (pf.entries.getD ((h.getLastD 0).toNat) dEntry,
         serializeFile { pf with metadata :=
           { pf.metadata with history := some h.dropLast } }))) := by
  obtain ⟨H, hH⟩ := extractMetadata_isSome content
  have hmH : (parseContent content).metadata.history = some H := hH
  have hval := validate_history_some (parseContent content) H hmH
  set pf := validate_history (parseContent content) with hpf
  set filt := H.filter (inRangeIdx (parseContent content).entries.length) with hfilt
  have hpfh : pf.metadata.history = some filt := hval
  have hpfe : pf.entries = (parseContent content).entries := validate_entries _
  by_cases hemp : filt.isEmpty
  · have hrm : remove_from_history pf = (none, pf) := by
      simp [remove_from_history, hpfh, hemp]
    simp only [rollback_last, ← hpf, hrm, hpfh, Option.getD_some, hemp, if_true]
  · have hne : filt ≠ [] := by simpa [List.isEmpty_iff] using hemp
    have hrm : remove_from_history pf
        = (some (filt.getLastD 0),
           { pf with metadata := { pf.metadata with history := some filt.dropLast } }) := by
      simp [remove_from_history, hpfh, hemp]
    have hmem : filt.getLastD 0 ∈ filt := getLastD_mem filt 0 hne
    have hrange : inRangeIdx (parseContent content).entries.length (filt.getLastD 0) = true :=
      (List.mem_filter.mp (by rw [hfilt] at hmem; exact hmem)).2
    have hbounds : 0 ≤ filt.getLastD 0
        ∧ filt.getLastD 0 < ((parseContent content).entries.length : Int) := by
      simpa [inRangeIdx] using hrange
    have hfind : find_entry_by_index
        { pf with metadata := { pf.metadata with history := some filt.dropLast } }
        (filt.getLastD 0)
        = some ((parseContent content).entries.getD ((filt.getLastD 0).toNat) dEntry) := by
      unfold find_entry_by_index
      have hents : ({ pf with metadata :=
          { pf.metadata with history := some filt.dropLast } } : ParsedFile).entries
          = (parseContent content).entries := hpfe
      rw [hents]
      have := find_by_consecutive (parseContent content).entries 0 (filt.getLastD 0)
        (fun k hk => by simpa using parse_row_index content k hk)
        hbounds.1 (by simpa using hbounds.2)
      simpa using this
    simp only [rollback_last, ← hpf, hrm, hfind, hpfh, Option.getD_some, hemp,
      Bool.false_eq_true, if_false]
    rw [hpfe]

/-- C9: on any file text, `rollback_last` validates the history, pops the tail
index, resolves it to the entry at that position, persists (re-serializes) the
document with the shortened history and returns that entry; an empty validated
history yields `ok none` — a normal outcome, not an error. -/
theorem claim_C9_rollback (content : Str) :
    rollback_last content =
      (let pf := validate_history (parseContent content)
       let h := (pf.metadata.history).getD []
       if h.isEmpty then Except.ok none
       else Except.ok (some (pf.entries.getD ((h.getLastD 0).toNat) dEntry,
         serializeFile { pf with metadata :=
           { pf.metadata with history := some h.dropLast } }))) :=
  rollback_last_eq content

/-- C10: every document produced by a parse has entry row indices exactly
`0 .. len-1` (position `k` carries index `k`); consequently every index that
survives validation resolves through `find_entry_by_index`, and `rollback_last`
never reaches its `ValueError` branch (the result is always `ok`). -/
theorem claim_C10_indices (content : Str) :
    (∀ k, k < (parseContent content).entries.length →
      ((parseContent content).entries.getD k dEntry).row_index = (k : Int))
    ∧ (∀ i, i ∈ ((validate_history (parseContent content)).metadata.history).getD [] →
        (find_entry_by_index (validate_history (parseContent content)) i).isSome)
    ∧ ∃ r, rollback_last content = Except.ok r := by
  refine ⟨parse_row_index content, ?_, ?_⟩
  · intro i hi
    obtain ⟨H, hH⟩ := extractMetadata_isSome content
    have hmH : (parseContent content).metadata.history = some H := hH
    have hval := validate_history_some (parseContent content) H hmH
    rw [hval] at hi
    simp only [Option.getD_some] at hi
    have hrange := (List.mem_filter.mp hi).2
    have hbounds : 0 ≤ i ∧ i < ((parseContent content).entries.length : Int) := by
      simpa [inRangeIdx] using hrange
    unfold find_entry_by_index
    rw [validate_entries]
    have := find_by_consecutive (parseContent content).entries 0 i
      (fun k hk => by simpa using parse_row_index content k hk)
      hbounds.1 (by simpa using hbounds.2)
    simp [this]
  · rw [rollback_last_eq content]
    simp only []
    split
    · exact ⟨none, rfl⟩
    · exact ⟨_, rfl⟩

/-- Witness for C10 at a concrete two-entry file with history `[1, 0]`. -/
theorem claim_C10_indices_witness :
    0 < (parseContent tW).entries.length
    ∧ ((parseContent tW).entries.getD 0 dEntry).row_index = 0
    ∧ (1 : Int) ∈ ((validate_history (parseContent tW)).metadata.history).getD []
    ∧ (find_entry_by_index (validate_history (parseContent tW)) 1).isSome :=
  ⟨by decide, (claim_C10_indices tW).1 0 (by decide), by decide,
    (claim_C10_indices tW).2.1 1 (by decide)⟩

/-! ## The legacy "Used" column (C7) -/

theorem dictInsert_key_mem (d : List (Str × Str)) (k v : Str) :
    ∀ kv ∈ dictInsert d k v, kv.1 = k ∨ ∃ kv' ∈ d, kv.1 = kv'.1 := by
  induction d with
  | nil =>
    intro kv hkv
    simp only [dictInsert, List.mem_singleton] at hkv
    exact Or.inl (by rw [hkv])
  | cons p rest ih =>
    intro kv hkv
    by_cases hk : p.1 = k
    · simp only [dictInsert, hk, if_true] at hkv
      rcases List.mem_cons.mp hkv with rfl | hkv
      · exact Or.inl rfl
      · exact Or.inr ⟨kv, List.mem_cons_of_mem _ hkv, rfl⟩
    · rw [show dictInsert (p :: rest) k v = p :: dictInsert rest k v by
        cases p; simp [dictInsert, hk]] at hkv
      rcases List.mem_cons.mp hkv with rfl | hkv
      · exact Or.inr ⟨kv, List.mem_cons_self _ _, rfl⟩
      · rcases ih kv hkv with h | ⟨kv', hkv', hh⟩
        · exact Or.inl h
        · exact Or.inr ⟨kv', List.mem_cons_of_mem _ hkv', hh⟩

theorem foldl_insert_keys (headers cells : List Str) (P : Str → Prop) :
    ∀ (l : List Nat) (init : List (Str × Str)),
    (∀ kv ∈ init, P kv.1) →
    (∀ i ∈ l, i < headers.length → P (headers.getD i [])) →
    ∀ kv ∈ l.foldl (fun d i =>
        if i < headers.length then dictInsert d (headers.getD i []) (cells.getD i []) else d)
      init, P kv.1 := by
  intro l
  induction l with
  | nil => intro init hinit _ kv hkv; exact hinit kv hkv
  | cons i l ih =>
    intro init hinit hl kv hkv
    simp only [List.foldl_cons] at hkv
    by_cases hi : i < headers.length
    · refine ih (dictInsert init (headers.getD i []) (cells.getD i [])) ?_ (fun j hj => hl j (List.mem_cons_of_mem _ hj)) kv (by simpa [hi] using hkv)
      intro kv' hkv'
      rcases dictInsert_key_mem init _ _ kv' hkv' with h | ⟨kv'', hkv'', hh⟩
      · rw [h]; exact hl i (List.mem_cons_self _ _) hi
      · rw [hh]; exact hinit kv'' hkv''
    · exact ih init hinit (fun j hj => hl j (List.mem_cons_of_mem _ hj)) kv
        (by simpa [hi] using hkv)

theorem buildMeta_keys (headers cells : List Str) (mend : Nat) :
    ∀ kv ∈ buildMeta headers cells mend,
    ∃ i, 1 ≤ i ∧ i < mend ∧ i < headers.length ∧ kv.1 = headers.getD i [] := by
  intro kv hkv
  refine foldl_insert_keys headers cells
    (fun kk => ∃ i, 1 ≤ i ∧ i < mend ∧ i < headers.length ∧ kk = headers.getD i [])
    (List.range' 1 (mend - 1)) [] (by simp) ?_ kv hkv
  intro i hi hilen
  have hb : 1 ≤ i ∧ i < 1 + (mend - 1) := by
    constructor
    · exact (List.mem_range'_1.mp hi).1
    · exact (List.mem_range'_1.mp hi).2
  exact ⟨i, hb.1, by omega, hilen, rfl⟩

theorem getLastD_eq_getLast {α : Type} (l : List α) (d : α) (h : l ≠ []) :
    l.getLastD d = l.getLast h := by
  rcases List.eq_nil_or_concat l with rfl | ⟨l', a, rfl⟩
  · exact absurd rfl h
  · simp

theorem outHeaders_dropLast (pf : ParsedFile) (hne : pf.headers ≠ [])
    (hlast : lowerStr (pf.headers.getLastD []) = "used".data)
    (hrest : ∀ h ∈ pf.headers.dropLast, ¬lowerStr h = "used".data) :
    outHeaders pf = pf.headers.dropLast := by
  unfold outHeaders
  conv_lhs => rw [← List.dropLast_append_getLast hne]
  rw [List.filter_append]
  have h1 : pf.headers.dropLast.filter (fun h => !decide (lowerStr h = "used".data))
      = pf.headers.dropLast :=
    List.filter_eq_self.mpr (fun a ha => by simp [hrest a ha])
  have h2 : [pf.headers.getLast hne].filter (fun h => !decide (lowerStr h = "used".data))
      = [] := by
    have hl : lowerStr (pf.headers.getLast hne) = "used".data := by
      rw [← getLastD_eq_getLast pf.headers [] hne]; exact hlast
    simp [hl]
  rw [h1, h2, List.append_nil]

/-- C7 (amended): with a trailing case-insensitive "Used" header, parsing keeps
the full header list (definitionally) and, for every row with at most as many
cells as headers, every attribute key of the resulting entry comes from the
headers strictly between the first and the last — the Used column never enters
the attributes; the spec's concrete scenario holds; and serialization drops the
Used header (the emitted header row and data rows are built from `outHeaders`,
which equals the headers without the trailing Used). -/
theorem claim_C7_used_column :
    (∀ (headers : List Str) (rows : List (List Str × Int)),
      headers ≠ [] → lowerStr (headers.getLastD []) = "used".data →
      (∀ r ∈ rows, r.1.length ≤ headers.length) →
      ∀ e ∈ extractEntries headers rows, ∀ kv ∈ e.metadata,
        kv.1 ∈ (headers.drop 1).dropLast)
    ∧ (parseContent ("| Content | Used |\n|---|---|\n| X | [x] |").data).headers
        = ["Content".data, "Used".data]
    ∧ ((parseContent ("| Content | Used |\n|---|---|\n| X | [x] |").data).entries.getD
        0 dEntry).metadata = []
    ∧ (∀ pf : ParsedFile, pf.headers ≠ [] →
        lowerStr (pf.headers.getLastD []) = "used".data →
        (∀ h ∈ pf.headers.dropLast, ¬lowerStr h = "used".data) →
        outHeaders pf = pf.headers.dropLast) := by
  refine ⟨?_, by decide, by decide, outHeaders_dropLast⟩
  intro headers rows hne hlast hcells e he kv hkv
  have hnemp : headers.isEmpty = false := by simpa [List.isEmpty_iff] using hne
  rw [extractEntries, hnemp] at he
  simp only [Bool.false_eq_true, if_false] at he
  obtain ⟨r, hr, hfr⟩ := List.mem_filterMap.mp he
  have hused : decide (lowerStr (headers.getLastD []) = "used".data) = true :=
    decide_eq_true hlast
  unfold entryOf at hfr
  by_cases hlen : r.1.length < 1
  · simp [hlen] at hfr
  · simp only [hused, hlen, if_false, if_true, Option.some.injEq] at hfr
    have hmeta : e.metadata = buildMeta headers r.1 (r.1.length - 1) := by
      rw [← hfr]
    rw [hmeta] at hkv
    obtain ⟨i, hi1, hi2, hi3, hkey⟩ := buildMeta_keys headers r.1 (r.1.length - 1) kv hkv
    have hcl : r.1.length ≤ headers.length := hcells r hr
    have hlen2 : i - 1 < ((headers.drop 1).dropLast).length := by
      simp only [List.length_dropLast, List.length_drop]
      omega
    have hget : ((headers.drop 1).dropLast).get ⟨i - 1, hlen2⟩ = headers.getD i [] := by
      have hidx : i < headers.length := hi3
      rw [List.getD_eq_getElem headers [] hidx]
      simp only [List.get_eq_getElem, List.getElem_dropLast, List.getElem_drop]
      congr 1
      omega
    rw [hkey, ← hget]
    exact List.get_mem _ _ _

/-- Witness for C7: a three-column table ending in "Used" whose attribute keys
avoid the first and last columns, and a document whose serialized headers drop
the trailing Used. -/
theorem claim_C7_used_column_witness :
    (∀ e ∈ extractEntries ["Content".data, "Tag".data, "Used".data]
        [(["x".data, "t".data, "[x]".data], (0 : Int))],
      ∀ kv ∈ e.metadata,
        kv.1 ∈ ((["Content".data, "Tag".data, "Used".data].drop 1)).dropLast)
    ∧ outHeaders pfU = pfU.headers.dropLast := by
  constructor
  · exact claim_C7_used_column.1 ["Content".data, "Tag".data, "Used".data] _
      (by decide) (by decide) (by decide)
  · exact claim_C7_used_column.2.2.2 pfU (by decide) (by decide) (by decide)

/-- C7 fails as stated: with headers `[Content, Used]` and the ragged data row
`| a | b | c |`, the cell sitting under the Used column does land in the
entry's attributes, keyed by the Used header. -/
theorem claim_C7_counterexample :
    ((parseContent ("| Content | Used |\n|---|---|\n| a | b | c |").data).entries.getD
        0 dEntry).metadata = [("Used".data, "b".data)] := by
  decide

/-! ## The raw prefix (C8) -/

theorem takePre_eq (ls : List Str) :
    takePre ls = (ls.takeWhile (fun l => !isRow (pyStrip l))).filter
      (fun l => !isPre "<!--".data (pyStrip l)) := by
  induction ls with
  | nil => rfl
  | cons l ls ih =>
    by_cases h1 : isRow (pyStrip l)
    · simp [takePre, h1, List.takeWhile_cons]
    · by_cases h2 : isPre "<!--".data (pyStrip l)
      · simp [takePre, h1, h2, List.takeWhile_cons, List.filter_cons, ih]
      · simp [takePre, h1, h2, List.takeWhile_cons, List.filter_cons, ih]

theorem joinSep_append (sep : Str) (xs ys : List Str) (hxs : xs ≠ []) (hys : ys ≠ []) :
    joinSep sep (xs ++ ys) = joinSep sep xs ++ sep ++ joinSep sep ys := by
  induction xs with
  | nil => exact absurd rfl hxs
  | cons x xs ih =>
    cases xs with
    | nil =>
      cases ys with
      | nil => exact absurd rfl hys
      | cons y ys => simp [joinSep]
    | cons x' xs' =>
      have := ih (by simp)
      have hcons : (x :: x' :: xs') ++ ys = x :: ((x' :: xs') ++ ys) := by simp
      rw [hcons]
      have hne : (x' :: xs') ++ ys ≠ [] := by simp
      rcases hx : (x' :: xs') ++ ys with _ | ⟨z, zs⟩
      · exact absurd hx hne
      · rw [show joinSep sep (x :: z :: zs) = x ++ sep ++ joinSep sep (z :: zs) from rfl,
          ← hx, this]
        simp [joinSep, List.append_assoc]

/-- C8 (amended): the lines kept by serialization are exactly the input lines
preceding the first table row whose stripped form does not start with `<!--`
(comment-looking prefix lines are dropped, which is why the prefix is not
reproduced verbatim), and the serialized output starts with exactly those kept
lines, followed by a blank line when the last kept line is non-blank. -/
theorem claim_C8_raw_pre (content : Str) :
    takePre (splitChar '\n' content)
      = ((splitChar '\n' content).takeWhile (fun l => !isRow (pyStrip l))).filter
          (fun l => !isPre "<!--".data (pyStrip l))
    ∧ ∃ rest : Str, serializeFile (parseContent content)
        = joinSep ['\n']
            (let pre := takePre (splitChar '\n' content)
             if pre.isEmpty then []
             else if (pyStrip (pre.getLastD [])).isEmpty then pre else pre ++ [[]])
          ++ rest := by
  refine ⟨takePre_eq _, ?_⟩
  have hraw : (parseContent content).raw_content = content := rfl
  set pf := parseContent content with hpf
  set pre := takePre (splitChar '\n' content) with hpre
  set lines1 : List Str := if pre.isEmpty then []
    else if (pyStrip (pre.getLastD [])).isEmpty then pre else pre ++ [[]] with hlines1
  have hser : serializeLines pf = lines1 ++
      ([mkRowStr (outHeaders pf), sepRowOf (outHeaders pf)]
       ++ pf.entries.map (rowLine (outHeaders pf))
       ++ (if metaIsEmpty pf.metadata then []
           else [[], "<!-- QUIVER_METADATA".data] ++
             (match pf.metadata.history with
              | some h => [histLine h]
              | none => []) ++ ["-->".data])) := by
    simp only [serializeLines, hraw, ← hpre, ← hlines1]
    simp only [List.append_assoc]
  by_cases hemp : lines1.isEmpty
  · have : lines1 = [] := by simpa [List.isEmpty_iff] using hemp
    refine ⟨serializeFile pf, ?_⟩
    rw [this]
    simp [joinSep]
  · have hne1 : lines1 ≠ [] := by simpa [List.isEmpty_iff] using hemp
    refine ⟨['\n'] ++ joinSep ['\n']
      ([mkRowStr (outHeaders pf), sepRowOf (outHeaders pf)]
       ++ pf.entries.map (rowLine (outHeaders pf))
       ++ (if metaIsEmpty pf.metadata then []
           else [[], "<!-- QUIVER_METADATA".data] ++
             (match pf.metadata.history with
              | some h => [histLine h]
              | none => []) ++ ["-->".data])), ?_⟩
    rw [serializeFile, hser, joinSep_append ['\n'] _ _ hne1 (by simp)]
    simp [List.append_assoc]

/-- C8 fails as stated: a prefix line that is an HTML comment is not reproduced
by serialization — the output does not even start with the original prefix. -/
theorem claim_C8_counterexample :
    isPre ("<!-- note -->".data)
      (serializeFile (parseContent ("<!-- note -->\nTitle\n| H |\n|---|\n| a |").data))
      = false := by
  decide

/-! ## Round trip (C1): string infrastructure -/

theorem splitChar_not_mem (c : Char) (s : Str) : ∀ x ∈ splitChar c s, c ∉ x := by
  induction s with
  | nil => intro x hx; simp only [splitChar, List.mem_singleton] at hx; simp [hx]
  | cons a s ih =>
    intro x hx
    simp only [splitChar] at hx
    by_cases ha : a = c
    · simp only [ha, if_true] at hx
      rcases List.mem_cons.mp hx with rfl | hx
      · simp
      · exact ih x hx
    · simp only [ha, if_false] at hx
      rcases hsp : splitChar c s with _ | ⟨h, t⟩
      · rw [hsp] at hx
        simp only [List.mem_singleton] at hx
        rw [hx]
        intro hmem
        simp only [List.mem_singleton] at hmem
        exact ha hmem.symm
      · rw [hsp] at hx
        rcases List.mem_cons.mp hx with rfl | hx
        · intro hmem
          rcases List.mem_cons.mp hmem with rfl | hmem
          · exact ha rfl
          · exact ih h (by rw [hsp]; exact List.mem_cons_self _ _) hmem
        · exact ih x (by rw [hsp]; exact List.mem_cons_of_mem _ hx)

theorem splitChar_subset (c : Char) (s : Str) :
    ∀ x ∈ splitChar c s, ∀ a ∈ x, a ∈ s := by
  induction s with
  | nil => intro x hx; simp only [splitChar, List.mem_singleton] at hx; simp [hx]
  | cons b s ih =>
    intro x hx a ha
    simp only [splitChar] at hx
    by_cases hb : b = c
    · simp only [hb, if_true] at hx
      rcases List.mem_cons.mp hx with rfl | hx
      · cases ha
      · exact List.mem_cons_of_mem _ (ih x hx a ha)
    · simp only [hb, if_false] at hx
      rcases hsp : splitChar c s with _ | ⟨h, t⟩
      · rw [hsp] at hx
        simp only [List.mem_singleton] at hx
        rw [hx] at ha
        have hab : a = b := by simpa using ha
        rw [hab]
        simp
      · rw [hsp] at hx
        rcases List.mem_cons.mp hx with rfl | hx
        · rcases List.mem_cons.mp ha with rfl | ha
          · simp
          · exact List.mem_cons_of_mem _
              (ih h (by rw [hsp]; exact List.mem_cons_self _ _) a ha)
        · exact List.mem_cons_of_mem _
            (ih x (by rw [hsp]; exact List.mem_cons_of_mem _ hx) a ha)

theorem dropTrail_sublist (p : Char → Bool) (l : Str) : List.Sublist (dropTrail p l) l := by
  have h : List.Sublist (l.reverse.dropWhile p) l.reverse := List.dropWhile_sublist _
  have h2 := h.reverse
  rwa [List.reverse_reverse] at h2

theorem pyStrip_sublist (l : Str) : List.Sublist (pyStrip l) l :=
  (dropTrail_sublist _ _).trans (List.dropWhile_sublist _)

theorem stripSet_sublist (cs : List Char) (l : Str) : List.Sublist (stripSet cs l) l :=
  (dropTrail_sublist _ _).trans (List.dropWhile_sublist _)

theorem pyStrip_subset (l : Str) : ∀ a ∈ pyStrip l, a ∈ l :=
  fun _ ha => (pyStrip_sublist l).subset ha

theorem stripSet_subset (cs : List Char) (l : Str) : ∀ a ∈ stripSet cs l, a ∈ l :=
  fun _ ha => (stripSet_sublist cs l).subset ha

theorem dropWhile_eq_self_of_head (p : Char → Bool) (l : Str)
    (h : ∀ a, l.head? = some a → p a = false) : l.dropWhile p = l := by
  cases l with
  | nil => rfl
  | cons a l => simp [List.dropWhile_cons, h a rfl]

theorem dropTrail_eq_self_of_last (p : Char → Bool) (l : Str)
    (h : ∀ b, l.getLast? = some b → p b = false) : dropTrail p l = l := by
  unfold dropTrail
  rw [dropWhile_eq_self_of_head p l.reverse (fun a ha => h a (by rwa [List.head?_reverse] at ha)),
    List.reverse_reverse]

theorem strip_no_op (p : Char → Bool) (l : Str)
    (hh : ∀ a, l.head? = some a → p a = false)
    (hl : ∀ b, l.getLast? = some b → p b = false) :
    dropTrail p (l.dropWhile p) = l := by
  rw [dropWhile_eq_self_of_head p l hh, dropTrail_eq_self_of_last p l hl]

theorem pyStrip_no_op (l : Str)
    (hh : ∀ a, l.head? = some a → pyWsChar a = false)
    (hl : ∀ b, l.getLast? = some b → pyWsChar b = false) : pyStrip l = l :=
  strip_no_op pyWsChar l hh hl

theorem stripSet_no_op (cs : List Char) (l : Str)
    (hh : ∀ a, l.head? = some a → a ∉ cs)
    (hl : ∀ b, l.getLast? = some b → b ∉ cs) : stripSet cs l = l := by
  refine strip_no_op _ l ?_ ?_
  · intro a ha; simpa using hh a ha
  · intro b hb; simpa using hl b hb

theorem head?_dropWhile (p : Char → Bool) (l : Str) :
    ∀ a, (l.dropWhile p).head? = some a → p a = false := by
  induction l with
  | nil => intro a ha; cases ha
  | cons b l ih =>
    intro a ha
    by_cases hb : p b
    · rw [List.dropWhile_cons, if_pos hb] at ha
      exact ih a ha
    · rw [List.dropWhile_cons, if_neg hb] at ha
      cases ha
      simpa using hb

theorem dropTrail_prefix (p : Char → Bool) (l : Str) : dropTrail p l <+: l := by
  have h : l.reverse.dropWhile p <:+ l.reverse := List.dropWhile_suffix _
  obtain ⟨t, ht⟩ := h
  refine ⟨t.reverse, ?_⟩
  have := congrArg List.reverse ht
  simpa [List.reverse_append] using this

theorem getLast?_dropTrail (p : Char → Bool) (l : Str) :
    ∀ b, (dropTrail p l).getLast? = some b → p b = false := by
  intro b hb
  have : (dropTrail p l).reverse.head? = some b := by rwa [List.head?_reverse]
  have h2 : (l.reverse.dropWhile p).head? = some b := by
    unfold dropTrail at this
    rwa [List.reverse_reverse] at this
  exact head?_dropWhile p l.reverse b h2

theorem head?_of_prefix {l₁ l₂ : Str} (h : l₁ <+: l₂) (hne : l₁ ≠ []) :
    l₂.head? = l₁.head? := by
  obtain ⟨t, rfl⟩ := h
  cases l₁ with
  | nil => exact absurd rfl hne
  | cons a l => rfl

theorem head?_pyStrip (l : Str) :
    ∀ a, (pyStrip l).head? = some a → pyWsChar a = false := by
  intro a ha
  have hpre := dropTrail_prefix pyWsChar (l.dropWhile pyWsChar)
  have hne : pyStrip l ≠ [] := by
    intro h; rw [h] at ha; cases ha
  have := head?_of_prefix hpre hne
  exact head?_dropWhile pyWsChar l a (by rw [this]; exact ha)

theorem getLast?_pyStrip (l : Str) :
    ∀ b, (pyStrip l).getLast? = some b → pyWsChar b = false :=
  fun b hb => getLast?_dropTrail pyWsChar _ b hb

theorem pyStrip_idem (l : Str) : pyStrip (pyStrip l) = pyStrip l :=
  pyStrip_no_op _ (head?_pyStrip l) (getLast?_pyStrip l)

theorem pyStrip_cons_ws (a : Char) (s : Str) (ha : pyWsChar a = true) :
    pyStrip (a :: s) = pyStrip s := by
  simp [pyStrip, List.dropWhile_cons, ha]

theorem dropTrail_concat (p : Char → Bool) (x : Str) (a : Char) (ha : p a = true) :
    dropTrail p (x ++ [a]) = dropTrail p x := by
  unfold dropTrail
  rw [List.reverse_append]
  simp [List.dropWhile_cons, ha]

theorem pyStrip_concat_ws (s : Str) (a : Char) (ha : pyWsChar a = true) :
    pyStrip (s ++ [a]) = pyStrip s := by
  induction s with
  | nil => simp [pyStrip, List.dropWhile_cons, ha, dropTrail]
  | cons x s ih =>
    by_cases hx : pyWsChar x
    · rw [List.cons_append, pyStrip_cons_ws x _ hx, pyStrip_cons_ws x s hx]
      exact ih
    · simp only [List.cons_append]
      have h1 : pyStrip (x :: (s ++ [a])) = dropTrail pyWsChar (x :: (s ++ [a])) := by
        simp [pyStrip, List.dropWhile_cons, hx]
      have h2 : pyStrip (x :: s) = dropTrail pyWsChar (x :: s) := by
        simp [pyStrip, List.dropWhile_cons, hx]
      rw [h1, h2, show x :: (s ++ [a]) = (x :: s) ++ [a] from rfl,
        dropTrail_concat pyWsChar (x :: s) a ha]

theorem pyStrip_pad (c : Str) : pyStrip (padCell c) = pyStrip c := by
  unfold padCell
  simp only [List.cons_append]
  rw [pyStrip_cons_ws ' ' _ (by decide), pyStrip_concat_ws c ' ' (by decide)]

theorem splitChar_of_not_mem (c : Char) (x : Str) (hx : c ∉ x) : splitChar c x = [x] := by
  induction x with
  | nil => rfl
  | cons a x ih =>
    have ha : ¬(a = c) := fun h => hx (by rw [h]; exact List.mem_cons_self _ _)
    have hx' : c ∉ x := fun h => hx (List.mem_cons_of_mem _ h)
    simp only [splitChar, ha, if_false, ih hx']

theorem splitChar_append (c : Char) (x rest : Str) (hx : c ∉ x) :
    splitChar c (x ++ c :: rest) = x :: splitChar c rest := by
  induction x with
  | nil => simp [splitChar]
  | cons a x ih =>
    have ha : ¬(a = c) := fun h => hx (by rw [h]; exact List.mem_cons_self _ _)
    have hx' : c ∉ x := fun h => hx (List.mem_cons_of_mem _ h)
    rw [List.cons_append]
    simp only [splitChar, ha, if_false, ih hx']

theorem splitChar_joinSep (c : Char) (xs : List Str) (hne : xs ≠ [])
    (hmem : ∀ x ∈ xs, c ∉ x) : splitChar c (joinSep [c] xs) = xs := by
  induction xs with
  | nil => exact absurd rfl hne
  | cons x xs ih =>
    cases xs with
    | nil => exact splitChar_of_not_mem c x (hmem x (List.mem_cons_self _ _))
    | cons y ys =>
      have hj : joinSep [c] (x :: y :: ys) = x ++ c :: joinSep [c] (y :: ys) := by
        simp [joinSep]
      rw [hj, splitChar_append c x _ (hmem x (List.mem_cons_self _ _)),
        ih (by simp) (fun z hz => hmem z (List.mem_cons_of_mem _ hz))]

theorem mem_joinSep (sep : Str) (xs : List Str) :
    ∀ a ∈ joinSep sep xs, a ∈ sep ∨ ∃ x ∈ xs, a ∈ x := by
  induction xs with
  | nil => intro a ha; cases ha
  | cons x xs ih =>
    intro a ha
    cases xs with
    | nil =>
      exact Or.inr ⟨x, List.mem_cons_self _ _, ha⟩
    | cons y ys =>
      simp only [joinSep, List.append_assoc, List.mem_append] at ha
      rcases ha with ha | ha | ha
      · exact Or.inr ⟨x, List.mem_cons_self _ _, ha⟩
      · exact Or.inl ha
      · rcases ih a ha with h | ⟨z, hz, hza⟩
        · exact Or.inl h
        · exact Or.inr ⟨z, List.mem_cons_of_mem _ hz, hza⟩

theorem mem_joinSep_of_mem (sep : Str) (xs : List Str) (x : Str) (hx : x ∈ xs) :
    ∀ a ∈ x, a ∈ joinSep sep xs := by
  induction xs with
  | nil => cases hx
  | cons y ys ih =>
    intro a ha
    cases ys with
    | nil =>
      rcases List.mem_cons.mp hx with rfl | hx
      · exact ha
      · cases hx
    | cons z zs =>
      simp only [joinSep, List.append_assoc, List.mem_append]
      rcases List.mem_cons.mp hx with rfl | hx
      · exact Or.inl ha
      · exact Or.inr (Or.inr (ih hx a ha))

/-! ## Round trip (C1): serialized row lines -/

theorem mkRowStr_unfold (cells : List Str) :
    mkRowStr cells = '|' :: ' ' :: (joinSep " | ".data cells ++ [' ', '|']) := by
  simp [mkRowStr]

theorem stripSet_pipe_mkRowStr (cells : List Str) :
    stripSet ['|'] (mkRowStr cells) = ' ' :: joinSep " | ".data cells ++ [' '] := by
  rw [mkRowStr_unfold]
  unfold stripSet
  rw [List.dropWhile_cons, if_pos (by decide), List.dropWhile_cons, if_neg (by decide)]
  rw [show ' ' :: (joinSep " | ".data cells ++ [' ', '|'])
      = ((' ' :: joinSep " | ".data cells ++ [' ']) ++ ['|']) from by simp]
  rw [dropTrail_concat _ _ '|' (by decide)]
  rw [dropTrail_eq_self_of_last]
  intro b hb
  rw [show ' ' :: joinSep " | ".data cells ++ [' ']
      = (' ' :: joinSep " | ".data cells) ++ [' '] from rfl, List.getLast?_concat] at hb
  cases hb
  decide

theorem spaced_join (cells : List Str) (hne : cells ≠ []) :
    ' ' :: joinSep " | ".data cells ++ [' '] = joinSep ['|'] (cells.map padCell) := by
  induction cells with
  | nil => exact absurd rfl hne
  | cons x xs ih =>
    cases xs with
    | nil => simp [joinSep, padCell]
    | cons y ys =>
      have hy := ih (by simp)
      have hx : joinSep " | ".data (x :: y :: ys)
          = x ++ " | ".data ++ joinSep " | ".data (y :: ys) := by simp [joinSep]
      have hmap : (x :: y :: ys).map padCell = padCell x :: (y :: ys).map padCell := rfl
      have hjoin : joinSep ['|'] (padCell x :: (y :: ys).map padCell)
          = padCell x ++ ['|'] ++ joinSep ['|'] ((y :: ys).map padCell) := by
        cases ys <;> simp [joinSep]
      rw [hx, hmap, hjoin, ← hy]
      simp [padCell, List.append_assoc]

theorem rowCells_mkRowStr (cells : List Str) (hne : cells ≠ [])
    (hclean : ∀ x ∈ cells, '|' ∉ x ∧ pyStrip x = x) :
    rowCells (mkRowStr cells) = cells := by
  unfold rowCells
  rw [stripSet_pipe_mkRowStr, spaced_join cells hne]
  rw [splitChar_joinSep '|' (cells.map padCell) (by simpa using hne) ?pipe]
  case pipe =>
    intro x hx
    obtain ⟨c, hc, rfl⟩ := List.mem_map.mp hx
    intro hmem
    unfold padCell at hmem
    rcases List.mem_cons.mp hmem with h | h
    · exact absurd h (by decide)
    · rcases List.mem_append.mp h with h | h
      · exact (hclean c hc).1 h
      · simp at h
  rw [List.map_map]
  have hpt : ∀ c ∈ cells, (pyStrip ∘ padCell) c = id c := fun c hc => by
    simp only [Function.comp_apply, id_eq, pyStrip_pad, (hclean c hc).2]
  rw [List.map_congr_left hpt, List.map_id]

theorem mkRowStr_concat (cells : List Str) :
    mkRowStr cells = ("| ".data ++ joinSep " | ".data cells ++ [' ']) ++ ['|'] := by
  simp [mkRowStr]

theorem getLastD_mkRowStr (cells : List Str) : (mkRowStr cells).getLastD ' ' = '|' := by
  rw [mkRowStr_concat, List.getLastD_concat]

theorem pyStrip_mkRowStr (cells : List Str) : pyStrip (mkRowStr cells) = mkRowStr cells := by
  refine pyStrip_no_op _ ?_ ?_
  · intro a ha
    rw [mkRowStr_unfold] at ha
    cases ha
    decide
  · intro b hb
    rw [show (mkRowStr cells).getLast? = some ((mkRowStr cells).getLastD ' ') from ?_] at hb
    · cases hb
      rw [getLastD_mkRowStr]
      decide
    · rcases List.eq_nil_or_concat (mkRowStr cells) with hcon | ⟨l', a, hcon⟩
      · exact absurd hcon (by rw [mkRowStr_unfold]; simp)
      · rw [hcon]; simp

theorem isRow_mkRowStr (cells : List Str) : isRow (mkRowStr cells) = true := by
  unfold isRow
  refine (Bool.and_eq_true _ _).mpr ⟨(Bool.and_eq_true _ _).mpr ⟨?_, ?_⟩, ?_⟩
  · rw [mkRowStr_unfold]
    simp only [List.length_cons, List.length_append]
    simp
  · rw [mkRowStr_unfold]; simp
  · rw [getLastD_mkRowStr]; simp

theorem isSep_mkRowStr_false (cells : List Str)
    (hch : ∃ x ∈ cells, ∃ ch ∈ x, sepChar ch = false) :
    isSep (mkRowStr cells) = false := by
  obtain ⟨x, hx, ch, hchx, hsep⟩ := hch
  have hmid : ((mkRowStr cells).drop 1).dropLast
      = ' ' :: (joinSep " | ".data cells ++ [' ']) := by
    have h1 : (mkRowStr cells).drop 1
        = (' ' :: (joinSep " | ".data cells ++ [' '])) ++ ['|'] := by
      rw [mkRowStr_unfold]; simp
    rw [h1, List.dropLast_concat]
  have hmem : ch ∈ ((mkRowStr cells).drop 1).dropLast := by
    rw [hmid]
    refine List.mem_cons_of_mem _ (List.mem_append.mpr (Or.inl ?_))
    exact mem_joinSep_of_mem _ cells x hx ch hchx
  have hall : (((mkRowStr cells).drop 1).dropLast).all sepChar = false := by
    refine (Bool.eq_false_iff).mpr ?_
    intro hall
    have := (List.all_eq_true.mp hall) ch hmem
    rw [hsep] at this
    cases this
  unfold isSep
  rw [hall]
  simp

theorem sepRowOf_unfold (headers : List Str) :
    sepRowOf headers = '|' :: (joinSep ['|'] (headers.map (fun _ => "---".data)) ++ ['|']) := by
  simp [sepRowOf]

theorem isRow_sepRowOf (headers : List Str) (hne : headers ≠ []) :
    isRow (sepRowOf headers) = true := by
  unfold isRow
  rcases headers with _ | ⟨h, hs⟩
  · exact absurd rfl hne
  · refine (Bool.and_eq_true _ _).mpr ⟨(Bool.and_eq_true _ _).mpr ⟨?_, ?_⟩, ?_⟩
    · simp only [sepRowOf_unfold, List.length_cons, List.length_append, decide_eq_true_eq]
      cases hs <;> simp [joinSep]
    · rw [sepRowOf_unfold]; simp
    · rw [show sepRowOf (h :: hs)
          = ('|' :: joinSep ['|'] ((h :: hs).map (fun _ => "---".data))) ++ ['|'] from by
            rw [sepRowOf_unfold]; simp,
        List.getLastD_concat]
      decide

theorem isSep_sepRowOf (headers : List Str) (hne : headers ≠ []) :
    isSep (sepRowOf headers) = true := by
  unfold isSep
  refine (Bool.and_eq_true _ _).mpr ⟨?_, ?_⟩
  · exact isRow_sepRowOf headers hne
  · rw [sepRowOf_unfold]
    simp only [List.drop_succ_cons, List.drop_zero]
    refine List.all_eq_true.mpr ?_
    intro ch hch
    have hch' : ch ∈ joinSep ['|'] (headers.map (fun _ => "---".data)) ++ ['|'] :=
      (List.dropLast_sublist _).subset hch
    rcases List.mem_append.mp hch' with h | h
    · rcases mem_joinSep (['|'] : Str) _ ch h with h | ⟨x, hx, hchx⟩
      · simp only [List.mem_singleton] at h
        rw [h]; decide
      · obtain ⟨_, _, rfl⟩ := List.mem_map.mp hx
        have hd : ch = '-' := by
          rcases List.mem_cons.mp hchx with h | h
          · exact h
          rcases List.mem_cons.mp h with h | h
          · exact h
          rcases List.mem_cons.mp h with h | h
          · exact h
          · cases h
        rw [hd]; decide
    · simp only [List.mem_singleton] at h
      rw [h]; decide

theorem rowCells_trimmed (l : Str) : ∀ x ∈ rowCells l, pyStrip x = x := by
  intro x hx
  obtain ⟨y, _, rfl⟩ := List.mem_map.mp hx
  exact pyStrip_idem y

theorem rowCells_no_pipe (l : Str) : ∀ x ∈ rowCells l, '|' ∉ x := by
  intro x hx hmem
  obtain ⟨y, hy, rfl⟩ := List.mem_map.mp hx
  exact splitChar_not_mem '|' (stripSet ['|'] l) y hy (pyStrip_subset y '|' hmem)

theorem rowCells_subset (l : Str) : ∀ x ∈ rowCells l, ∀ a ∈ x, a ∈ l := by
  intro x hx a ha
  obtain ⟨y, hy, rfl⟩ := List.mem_map.mp hx
  exact stripSet_subset ['|'] l a
    (splitChar_subset '|' (stripSet ['|'] l) y hy a (pyStrip_subset y a ha))

/-! ## Round trip (C1): the table scan over a serialized document -/

theorem head?_sepRowOf (headers : List Str) : (sepRowOf headers).head? = some '|' := by
  rw [sepRowOf_unfold]; rfl

theorem pyStrip_sepRowOf (headers : List Str) :
    pyStrip (sepRowOf headers) = sepRowOf headers := by
  refine pyStrip_no_op _ ?_ ?_
  · intro a ha
    rw [head?_sepRowOf] at ha
    cases ha
    decide
  · intro b hb
    have hcon : sepRowOf headers
        = ('|' :: joinSep ['|'] (headers.map (fun _ => "---".data))) ++ ['|'] := by
      rw [sepRowOf_unfold]; simp
    rw [hcon, List.getLast?_concat] at hb
    cases hb
    decide

theorem extractTableAux_skip (pre : List Str)
    (hpre : ∀ l ∈ pre, isRow (pyStrip l) = false) (ls : List Str)
    (hs : List Str) (rs : List (List Str × Int)) (idx : Int) :
    extractTableAux (pre ++ ls) false hs rs idx = extractTableAux ls false hs rs idx := by
  induction pre with
  | nil => rfl
  | cons l pre ih =>
    rw [List.cons_append]
    simp only [extractTableAux, hpre l (List.mem_cons_self _ _), Bool.false_eq_true,
      if_false, Bool.false_and, ite_self]
    exact ih (fun l' hl' => hpre l' (List.mem_cons_of_mem _ hl'))

theorem scan_step_header (cells : List Str) (hne : cells ≠ [])
    (hclean : ∀ x ∈ cells, '|' ∉ x ∧ pyStrip x = x) (ls : List Str)
    (hs : List Str) (rs : List (List Str × Int)) (idx : Int) :
    extractTableAux (mkRowStr cells :: ls) false hs rs idx
      = extractTableAux ls true cells rs idx := by
  simp only [extractTableAux, pyStrip_mkRowStr, isRow_mkRowStr, if_true,
    Bool.not_false, rowCells_mkRowStr cells hne hclean]

theorem scan_step_sep (headers : List Str) (hne : headers ≠ []) (ls : List Str)
    (hs : List Str) (rs : List (List Str × Int)) (idx : Int) :
    extractTableAux (sepRowOf headers :: ls) true hs rs idx
      = extractTableAux ls true hs rs idx := by
  simp only [extractTableAux, pyStrip_sepRowOf, isRow_sepRowOf headers hne,
    isSep_sepRowOf headers hne, if_true, Bool.not_true, Bool.false_eq_true, if_false]

theorem scan_step_data (cells : List Str) (hne : cells ≠ [])
    (hclean : ∀ x ∈ cells, '|' ∉ x ∧ pyStrip x = x)
    (hnonsep : ∃ x ∈ cells, ∃ ch ∈ x, sepChar ch = false) (ls : List Str)
    (hs : List Str) (rs : List (List Str × Int)) (idx : Int) :
    extractTableAux (mkRowStr cells :: ls) true hs rs idx
      = extractTableAux ls true hs (rs ++ [(cells, idx)]) (idx + 1) := by
  simp only [extractTableAux, pyStrip_mkRowStr, isRow_mkRowStr, if_true,
    isSep_mkRowStr_false cells hnonsep, Bool.not_true, Bool.false_eq_true, if_false,
    rowCells_mkRowStr cells hne hclean]

theorem scan_rows (rowsCells : List (List Str))
    (hcond : ∀ r ∈ rowsCells, r ≠ [] ∧ (∀ x ∈ r, '|' ∉ x ∧ pyStrip x = x)
      ∧ ∃ x ∈ r, ∃ ch ∈ x, sepChar ch = false) (ls : List Str)
    (hs : List Str) (rs : List (List Str × Int)) (idx : Int) :
    extractTableAux (rowsCells.map mkRowStr ++ ls) true hs rs idx
      = extractTableAux ls true hs (rs ++ enumFrom idx rowsCells)
          (idx + rowsCells.length) := by
  induction rowsCells generalizing rs idx with
  | nil => simp [enumFrom]
  | cons r rows ih =>
    obtain ⟨hne, hclean, hnonsep⟩ := hcond r (List.mem_cons_self _ _)
    rw [List.map_cons, List.cons_append,
      scan_step_data r hne hclean hnonsep _ hs rs idx,
      ih (fun r' hr' => hcond r' (List.mem_cons_of_mem _ hr')) (rs ++ [(r, idx)]) (idx + 1)]
    simp only [enumFrom, List.append_assoc, List.singleton_append, List.length_cons]
    congr 1
    push_cast
    ring

theorem scan_meta_tail (rest : List Str) (hs : List Str) (rs : List (List Str × Int))
    (idx : Int) :
    extractTableAux (([] : Str) :: "<!-- QUIVER_METADATA".data :: rest) true hs rs idx
      = ⟨hs, rs⟩ := by
  have hblank : extractTableAux (([] : Str) :: "<!-- QUIVER_METADATA".data :: rest)
      true hs rs idx
      = extractTableAux ("<!-- QUIVER_METADATA".data :: rest) true hs rs idx := by
    simp only [extractTableAux]
    rw [show pyStrip ([] : Str) = [] from rfl]
    simp [isRow]
  rw [hblank]
  simp only [extractTableAux]
  rw [show pyStrip ("<!-- QUIVER_METADATA".data) = "<!-- QUIVER_METADATA".data from by decide,
    show isRow ("<!-- QUIVER_METADATA".data) = false from by decide,
    show isSep ("<!-- QUIVER_METADATA".data) = false from by decide,
    show isPre ['#'] ("<!-- QUIVER_METADATA".data) = false from by decide]
  simp [List.isEmpty]

theorem extractTable_serialized (pre : List Str)
    (hpre : ∀ l ∈ pre, isRow (pyStrip l) = false)
    (headers : List Str) (hHne : headers ≠ [])
    (hHclean : ∀ x ∈ headers, '|' ∉ x ∧ pyStrip x = x)
    (rowsCells : List (List Str))
    (hrows : ∀ r ∈ rowsCells, r ≠ [] ∧ (∀ x ∈ r, '|' ∉ x ∧ pyStrip x = x)
      ∧ ∃ x ∈ r, ∃ ch ∈ x, sepChar ch = false)
    (tail0 : List Str) :
    extractTable (pre ++ [mkRowStr headers, sepRowOf headers] ++ rowsCells.map mkRowStr
      ++ (([] : Str) :: "<!-- QUIVER_METADATA".data :: tail0))
      = ⟨headers, enumFrom 0 rowsCells⟩ := by
  unfold extractTable
  rw [List.append_assoc, List.append_assoc,
    extractTableAux_skip pre hpre _ [] [] 0]
  rw [show ([mkRowStr headers, sepRowOf headers] : List Str)
      ++ (rowsCells.map mkRowStr ++ (([] : Str) :: "<!-- QUIVER_METADATA".data :: tail0))
      = mkRowStr headers :: sepRowOf headers :: (rowsCells.map mkRowStr
        ++ (([] : Str) :: "<!-- QUIVER_METADATA".data :: tail0)) from rfl]
  rw [scan_step_header headers hHne hHclean _ [] [] 0,
    scan_step_sep headers hHne _ headers [] 0,
    scan_rows rowsCells hrows _ headers [] 0,
    scan_meta_tail tail0 headers (([] : List (List Str × Int)) ++ enumFrom 0 rowsCells) _]
  simp

theorem takePre_subset (ls : List Str) : ∀ l ∈ takePre ls, l ∈ ls := by
  induction ls with
  | nil => intro l hl; cases hl
  | cons x ls ih =>
    intro l hl
    by_cases h1 : isRow (pyStrip x)
    · rw [takePre, if_pos h1] at hl
      cases hl
    · rw [takePre, if_neg h1] at hl
      by_cases h2 : isPre "<!--".data (pyStrip x)
      · rw [if_pos h2] at hl
        exact List.mem_cons_of_mem _ (ih l hl)
      · rw [if_neg h2] at hl
        rcases List.mem_cons.mp hl with rfl | hl
        · exact List.mem_cons_self _ _
        · exact List.mem_cons_of_mem _ (ih l hl)

theorem takePre_not_row (ls : List Str) : ∀ l ∈ takePre ls, isRow (pyStrip l) = false := by
  induction ls with
  | nil => intro l hl; cases hl
  | cons x ls ih =>
    intro l hl
    by_cases h1 : isRow (pyStrip x)
    · rw [takePre, if_pos h1] at hl
      cases hl
    · rw [takePre, if_neg h1] at hl
      by_cases h2 : isPre "<!--".data (pyStrip x)
      · rw [if_pos h2] at hl
        exact ih l hl
      · rw [if_neg h2] at hl
        rcases List.mem_cons.mp hl with rfl | hl
        · simpa using h1
        · exact ih l hl

theorem extractTableAux_headers_stay (ls : List Str) :
    ∀ (hs : List Str) (rs : List (List Str × Int)) (idx : Int),
    (extractTableAux ls true hs rs idx).headers = hs := by
  induction ls with
  | nil => intro hs rs idx; rfl
  | cons l ls ih =>
    intro hs rs idx
    simp only [extractTableAux]
    by_cases h1 : isRow (pyStrip l)
    · simp only [h1, if_true, Bool.not_true, Bool.false_eq_true, if_false]
      by_cases h2 : isSep (pyStrip l)
      · simp [h2, ih]
      · simp [h2, ih]
    · simp only [h1, Bool.false_eq_true, if_false, Bool.true_and]
      by_cases h2 : (!(pyStrip l).isEmpty && !isPre ['#'] (pyStrip l)) = true
      · simp only [h2, if_true]
        by_cases h3 : isSep (pyStrip l)
        · simp [h3, ih]
        · simp [h3]
      · simp only [h2, Bool.false_eq_true, if_false]
        exact ih hs rs idx

/-! ## Round trip (C1): locating the metadata block -/

theorem getLastD_irrel {α : Type} (l : List α) (hne : l ≠ []) (d₁ d₂ : α) :
    l.getLastD d₁ = l.getLastD d₂ := by
  rcases List.eq_nil_or_concat l with rfl | ⟨l', a, rfl⟩
  · exact absurd rfl hne
  · simp

theorem isPre_append_left (p : Str) : ∀ (s b : Str), isPre p (s ++ b) = true →
    p.length ≤ s.length → isPre p s = true := by
  induction p with
  | nil => intro s b _ _; rfl
  | cons q p ih =>
    intro s b hpre hlen
    cases s with
    | nil => simp at hlen
    | cons x s =>
      rw [List.cons_append] at hpre
      simp only [isPre, Bool.and_eq_true] at hpre ⊢
      exact ⟨hpre.1, ih s b hpre.2 (by simpa using hlen)⟩

theorem isPre_last_mem (p : Str) : ∀ (s b : Str), isPre p (s ++ b) = true →
    s ≠ [] → s.length ≤ p.length → s.getLastD ' ' ∈ p := by
  induction p with
  | nil =>
    intro s b _ hne hlen
    cases s with
    | nil => exact absurd rfl hne
    | cons x s => simp at hlen
  | cons q p ih =>
    intro s b hpre hne hlen
    cases s with
    | nil => exact absurd rfl hne
    | cons x s =>
      rw [List.cons_append] at hpre
      simp only [isPre, Bool.and_eq_true, decide_eq_true_eq] at hpre
      cases s with
      | nil =>
        rw [show ([x] : Str).getLastD ' ' = x from rfl, ← hpre.1]
        exact List.mem_cons_self _ _
      | cons y s =>
        have hmem := ih (y :: s) b hpre.2 (by simp) (by simpa using hlen)
        rw [List.getLastD_cons, getLastD_irrel (y :: s) (by simp) x ' ']
        exact List.mem_cons_of_mem _ hmem

theorem isPre_cross_mem (p : Str) : ∀ (s y : Str) (d : Char),
    isPre p (s ++ d :: y) = true → s.length < p.length → d ∈ p := by
  induction p with
  | nil => intro s y d _ hlen; simp at hlen
  | cons q p ih =>
    intro s y d hpre hlen
    cases s with
    | nil =>
      simp only [List.nil_append, isPre, Bool.and_eq_true, decide_eq_true_eq] at hpre
      rw [← hpre.1]
      exact List.mem_cons_self _ _
    | cons x s =>
      rw [List.cons_append] at hpre
      simp only [isPre, Bool.and_eq_true] at hpre
      exact List.mem_cons_of_mem _ (ih s y d hpre.2 (by simpa using hlen))

theorem containsSub_cons (p : Str) (a : Char) (s : Str) :
    containsSub p (a :: s) = (isPre p (a :: s) || containsSub p s) := rfl

theorem containsSub_nil_false (p : Str) (hp : p ≠ []) : containsSub p [] = false := by
  cases p with
  | nil => exact absurd rfl hp
  | cons q p => rfl

theorem containsSub_of_isPre (p s : Str) (h : isPre p s = true) :
    containsSub p s = true := by
  cases s with
  | nil => cases p with
    | nil => rfl
    | cons q p => simp [isPre] at h
  | cons a s => rw [containsSub_cons, h]; rfl

theorem containsSub_append_cons (p : Str) (d : Char) (hd : d ∉ p) :
    ∀ (x y : Str), containsSub p (x ++ d :: y) = true →
    containsSub p x = true ∨ containsSub p y = true := by
  intro x
  induction x with
  | nil =>
    intro y h
    rw [List.nil_append, containsSub_cons] at h
    rcases Bool.or_eq_true _ _ |>.mp h with h | h
    · cases p with
      | nil => exact Or.inl rfl
      | cons q p =>
        simp only [isPre, Bool.and_eq_true, decide_eq_true_eq] at h
        exact absurd (h.1 ▸ List.mem_cons_self q p) (by rw [h.1] at hd; exact hd)
    · exact Or.inr h
  | cons a x ih =>
    intro y h
    rw [List.cons_append, containsSub_cons] at h
    rcases Bool.or_eq_true _ _ |>.mp h with h | h
    · by_cases hlen : p.length ≤ (a :: x).length
      · exact Or.inl (containsSub_of_isPre _ _
          (isPre_append_left p (a :: x) (d :: y) (by simpa using h) hlen))
      · exact absurd (isPre_cross_mem p (a :: x) y d (by simpa using h) (by omega)) hd
    · rcases ih y h with h | h
      · exact Or.inl (by rw [containsSub_cons, h]; simp)
      · exact Or.inr h

theorem containsSub_joinSep_false (p : Str) (hp : p ≠ []) (c : Char) (hc : c ∉ p)
    (ls : List Str) (hls : ∀ l ∈ ls, containsSub p l = false) :
    containsSub p (joinSep [c] ls) = false := by
  induction ls with
  | nil => exact containsSub_nil_false p hp
  | cons l ls ih =>
    cases ls with
    | nil => exact hls l (List.mem_cons_self _ _)
    | cons l₂ ls' =>
      have hj : joinSep [c] (l :: l₂ :: ls') = l ++ c :: joinSep [c] (l₂ :: ls') := by
        simp [joinSep]
      rw [hj]
      refine (Bool.eq_false_iff).mpr ?_
      intro hcon
      rcases containsSub_append_cons p c hc l _ hcon with h | h
      · rw [hls l (List.mem_cons_self _ _)] at h; cases h
      · rw [ih (fun l' hl' => hls l' (List.mem_cons_of_mem _ hl'))] at h; cases h

theorem containsSub_head_mem (a : Char) (q : Str) :
    ∀ s, containsSub (a :: q) s = true → a ∈ s := by
  intro s
  induction s with
  | nil => intro h; cases h
  | cons b s ih =>
    intro h
    rw [containsSub_cons] at h
    rcases Bool.or_eq_true _ _ |>.mp h with h | h
    · simp only [isPre, Bool.and_eq_true, decide_eq_true_eq] at h
      rw [h.1]
      exact List.mem_cons_self _ _
    · exact List.mem_cons_of_mem _ (ih h)

theorem matchMetaAt_none_of_not_isPre (s : Str)
    (h : isPre "<!--".data s = false) : matchMetaAt s = none := by
  unfold matchMetaAt
  rw [h]
  rfl

theorem findMeta_append (A B : Str) (hsub : containsSub "<!--".data A = false)
    (hlast : ∀ h : A ≠ [], A.getLast h = '\n') :
    findMeta (A ++ B) = findMeta B := by
  induction A with
  | nil => rfl
  | cons a A ih =>
    have hnp : isPre "<!--".data ((a :: A) ++ B) = false := by
      refine (Bool.eq_false_iff).mpr ?_
      intro hpre
      by_cases hlen : ("<!--".data).length ≤ (a :: A).length
      · have h1 := containsSub_of_isPre _ _ (isPre_append_left _ (a :: A) B hpre hlen)
        rw [hsub] at h1
        cases h1
      · have h2 := isPre_last_mem "<!--".data (a :: A) B hpre (by simp) (by omega)
        have h3 : (a :: A).getLastD ' ' = '\n' := by
          rw [getLastD_eq_getLast (a :: A) ' ' (by simp)]
          exact hlast (by simp)
        rw [h3] at h2
        rcases List.mem_cons.mp h2 with h | h
        · exact absurd h (by decide)
        rcases List.mem_cons.mp h with h | h
        · exact absurd h (by decide)
        rcases List.mem_cons.mp h with h | h
        · exact absurd h (by decide)
        rcases List.mem_cons.mp h with h | h
        · exact absurd h (by decide)
        · cases h
    rw [List.cons_append]
    show (match matchMetaAt ((a :: A) ++ B) with
      | some g => some g
      | none => findMeta (A ++ B)) = findMeta B
    rw [show (a :: A) ++ B = a :: (A ++ B) from rfl,
      matchMetaAt_none_of_not_isPre _ (by rw [show a :: (A ++ B) = (a :: A) ++ B from rfl]; exact hnp)]
    by_cases hA : A = []
    · subst hA; rfl
    · exact ih (by
        rw [containsSub_cons] at hsub
        exact (Bool.or_eq_false_iff.mp hsub).2)
        (fun h => by
          have := hlast (by simp)
          rwa [List.getLast_cons h] at this)

/-! ## Round trip (C1): decimal integers -/

theorem mem_of_head? {α : Type} {l : List α} {a : α} (h : l.head? = some a) : a ∈ l := by
  cases l with
  | nil => cases h
  | cons x l => cases h; exact List.mem_cons_self _ _

theorem mem_of_getLast? {α : Type} {l : List α} {b : α} (h : l.getLast? = some b) : b ∈ l := by
  rcases List.eq_nil_or_concat l with rfl | ⟨l', a, rfl⟩
  · cases h
  · rw [List.concat_eq_append] at h ⊢
    rw [List.getLast?_concat] at h
    cases h
    simp

theorem natStrAux_eq (n : Nat) : ∀ (f₁ f₂ : Nat), n < f₁ → n < f₂ →
    natStrAux f₁ n = natStrAux f₂ n := by
  induction n using Nat.strong_induction_on with
  | _ n ih =>
    intro f₁ f₂ h₁ h₂
    cases f₁ with
    | zero => omega
    | succ f₁ =>
      cases f₂ with
      | zero => omega
      | succ f₂ =>
        simp only [natStrAux]
        by_cases hn : n < 10
        · simp [hn]
        · simp only [hn, if_false]
          rw [ih (n / 10) (by omega) f₁ f₂ (by omega) (by omega)]

theorem natStr_lt10 (n : Nat) (h : n < 10) : natStr n = [digitCh n] := by
  simp [natStr, natStrAux, h]

theorem natStr_step (n : Nat) (h : 10 ≤ n) :
    natStr n = natStr (n / 10) ++ [digitCh (n % 10)] := by
  unfold natStr
  rw [show natStrAux (n + 1) n = natStrAux n (n / 10) ++ [digitCh (n % 10)] from by
    simp [natStrAux, Nat.not_lt_of_le h]]
  rw [natStrAux_eq (n / 10) n (n / 10 + 1) (by omega) (by omega)]

theorem digitCh_isDigit (n : Nat) (h : n < 10) : (digitCh n).isDigit = true := by
  interval_cases n <;> decide

theorem digitVal_digitCh (n : Nat) (h : n < 10) : digitVal (digitCh n) = n := by
  interval_cases n <;> decide

theorem natStr_all_digit (n : Nat) : ∀ c ∈ natStr n, c.isDigit = true := by
  induction n using Nat.strong_induction_on with
  | _ n ih =>
    by_cases hn : n < 10
    · rw [natStr_lt10 n hn]
      intro c hc
      simp only [List.mem_singleton] at hc
      rw [hc]
      exact digitCh_isDigit n hn
    · rw [natStr_step n (by omega)]
      intro c hc
      rcases List.mem_append.mp hc with hc | hc
      · exact ih (n / 10) (by omega) c hc
      · simp only [List.mem_singleton] at hc
        rw [hc]
        exact digitCh_isDigit (n % 10) (by omega)

theorem natStr_ne_nil (n : Nat) : natStr n ≠ [] := by
  by_cases hn : n < 10
  · rw [natStr_lt10 n hn]; simp
  · rw [natStr_step n (by omega)]; simp

theorem digitsValAux_digits : ∀ (ds : Str) (acc : Nat) (b : Bool),
    (∀ c ∈ ds, c.isDigit = true) → ds ≠ [] →
    digitsValAux acc b ds = some (ds.foldl (fun a c => a * 10 + digitVal c) acc) := by
  intro ds
  induction ds with
  | nil => intro _ _ _ h; exact absurd rfl h
  | cons c ds ih =>
    intro acc b hd _
    have hc : c.isDigit = true := hd c (List.mem_cons_self _ _)
    cases ds with
    | nil => simp [digitsValAux, hc]
    | cons d ds' =>
      rw [show digitsValAux acc b (c :: d :: ds')
          = digitsValAux (acc * 10 + digitVal c) true (d :: ds') from by
        simp [digitsValAux, hc]]
      rw [ih (acc * 10 + digitVal c) true (fun x hx => hd x (List.mem_cons_of_mem _ hx))
        (by simp)]
      rfl

theorem foldl_natStr (n : Nat) :
    (natStr n).foldl (fun a c => a * 10 + digitVal c) 0 = n := by
  suffices h : ∀ m acc, (natStr m).foldl (fun a c => a * 10 + digitVal c) acc
      = acc * 10 ^ (natStr m).length + m by
    have := h n 0
    simpa using this
  intro m
  induction m using Nat.strong_induction_on with
  | _ m ih =>
    intro acc
    by_cases hm : m < 10
    · rw [natStr_lt10 m hm]
      simp [digitVal_digitCh m hm]
    · rw [natStr_step m (by omega), List.foldl_append]
      rw [ih (m / 10) (by omega) acc]
      simp only [List.foldl_cons, List.foldl_nil, List.length_append, List.length_singleton]
      rw [digitVal_digitCh (m % 10) (by omega)]
      rw [pow_succ]
      have : m / 10 * 10 + m % 10 = m := by omega
      ring_nf
      omega

theorem digitsVal_natStr (n : Nat) : digitsVal (natStr n) = some n := by
  unfold digitsVal
  rw [digitsValAux_digits (natStr n) 0 false (natStr_all_digit n) (natStr_ne_nil n),
    foldl_natStr]

theorem isDigit_not_ws (c : Char) (h : c.isDigit = true) : pyWsChar c = false := by
  refine (Bool.eq_false_iff).mpr ?_
  intro hws
  simp only [pyWsChar, Bool.or_eq_true, decide_eq_true_eq] at hws
  rcases hws with ((((rfl | rfl) | rfl) | rfl) | rfl) | rfl <;> simp [Char.isDigit] at h

theorem isDigit_ne (c : Char) (h : c.isDigit = true) (d : Char) (hd : d.isDigit = false) :
    c ≠ d := by
  intro hcd
  rw [hcd, hd] at h
  cases h

theorem intStr_chars (i : Int) : ∀ c ∈ intStr i, c.isDigit = true ∨ c = '-' := by
  unfold intStr
  by_cases hi : i < 0
  · simp only [hi, if_true]
    intro c hc
    rcases List.mem_cons.mp hc with rfl | hc
    · exact Or.inr rfl
    · exact Or.inl (natStr_all_digit _ c hc)
  · simp only [hi, if_false]
    intro c hc
    exact Or.inl (natStr_all_digit _ c hc)

theorem intStr_ne_nil (i : Int) : intStr i ≠ [] := by
  unfold intStr
  by_cases hi : i < 0
  · simp [hi]
  · simp [hi, natStr_ne_nil]

theorem pyStrip_intStr (i : Int) : pyStrip (intStr i) = intStr i := by
  refine pyStrip_no_op _ ?_ ?_
  · intro a ha
    rcases intStr_chars i a (mem_of_head? ha) with h | rfl
    · exact isDigit_not_ws a h
    · decide
  · intro b hb
    rcases intStr_chars i b (mem_of_getLast? hb) with h | rfl
    · exact isDigit_not_ws b h
    · decide

theorem natStr_head_digit (n : Nat) : ∀ a, (natStr n).head? = some a → a.isDigit = true :=
  fun a ha => natStr_all_digit n a (mem_of_head? ha)

theorem pyInt_eq (s : Str) (c : Char) (rest : Str) (h : pyStrip s = c :: rest) :
    pyInt s = if c = '+' then (digitsVal rest).map Int.ofNat
      else if c = '-' then (digitsVal rest).map (fun n => -(n : Int))
      else (digitsVal (c :: rest)).map Int.ofNat := by
  unfold pyInt
  rw [h]

theorem pyInt_intStr (i : Int) : pyInt (intStr i) = some i := by
  by_cases hi : i < 0
  · have hrep : intStr i = '-' :: natStr i.natAbs := by simp [intStr, hi]
    rw [pyInt_eq (intStr i) '-' (natStr i.natAbs) (by rw [pyStrip_intStr, hrep]),
      if_neg (by decide), if_pos rfl, digitsVal_natStr]
    show some (-(i.natAbs : Int)) = some i
    congr 1
    omega
  · have hrep : intStr i = natStr i.toNat := by simp [intStr, hi]
    rcases hns : natStr i.toNat with _ | ⟨c, rest⟩
    · exact absurd hns (natStr_ne_nil _)
    · have hc : c.isDigit = true := by
        refine natStr_all_digit i.toNat c ?_
        rw [hns]; exact List.mem_cons_self _ _
      rw [pyInt_eq (intStr i) c rest (by rw [pyStrip_intStr, hrep, hns]),
        if_neg (isDigit_ne c hc '+' (by decide)),
        if_neg (isDigit_ne c hc '-' (by decide)), ← hns, digitsVal_natStr]
      show some (Int.ofNat i.toNat) = some i
      congr 1
      rw [Int.ofNat_eq_coe]
      omega

theorem findBefore_at_nl (q : Str) (r : Str) (hq : isPre q r = true) :
    ∀ x, '\n' ∉ x → findBefore ('\n' :: q) (x ++ '\n' :: r) = some x := by
  intro x
  induction x with
  | nil =>
    intro _
    rw [List.nil_append]
    unfold findBefore
    rw [show isPre ('\n' :: q) ('\n' :: r) = isPre q r from by simp [isPre], hq]
    rfl
  | cons a x ih =>
    intro hnl
    have ha : ¬(a = '\n') := fun h => hnl (by rw [h]; exact List.mem_cons_self _ _)
    rw [List.cons_append]
    unfold findBefore
    rw [show isPre ('\n' :: q) (a :: (x ++ '\n' :: r)) = (decide (a = '\n') && isPre q (x ++ '\n' :: r)) from by
      simp [isPre, Bool.and_comm, eq_comm]]
    rw [show decide (a = '\n') = false from by simp [ha]]
    rw [Bool.false_and]
    simp only [Bool.false_eq_true, if_false]
    rw [ih (fun h => hnl (List.mem_cons_of_mem _ h))]
    rfl

theorem findMeta_block (hist : Str) (hne : hist ≠ [])
    (hhead : ∀ a, hist.head? = some a → pyWsChar a = false) (hnl : '\n' ∉ hist) :
    findMeta ("<!-- QUIVER_METADATA".data ++ '\n' :: hist ++ '\n' :: "-->".data)
      = some hist := by
  have hm : matchMetaAt ("<!-- QUIVER_METADATA".data ++ '\n' :: hist ++ '\n' :: "-->".data)
      = some hist := by
    unfold matchMetaAt
    rw [show isPre "<!--".data
        ("<!-- QUIVER_METADATA".data ++ '\n' :: hist ++ '\n' :: "-->".data) = true from rfl,
      if_pos rfl]
    rw [show ("<!-- QUIVER_METADATA".data ++ '\n' :: hist ++ '\n' :: "-->".data).drop 4
        = ' ' :: ("QUIVER_METADATA".data ++ '\n' :: hist ++ '\n' :: "-->".data) from rfl]
    rw [show (' ' :: ("QUIVER_METADATA".data ++ '\n' :: hist ++ '\n' :: "-->".data)).dropWhile
          pyWsChar
        = "QUIVER_METADATA".data ++ '\n' :: hist ++ '\n' :: "-->".data from by
      rw [List.dropWhile_cons, if_pos (by decide)]
      exact dropWhile_eq_self_of_head _ _ (fun a ha => by cases ha; decide)]
    rw [show isPre "QUIVER_METADATA".data
        ("QUIVER_METADATA".data ++ '\n' :: hist ++ '\n' :: "-->".data) = true from rfl,
      if_pos rfl]
    rw [show ("QUIVER_METADATA".data ++ '\n' :: hist ++ '\n' :: "-->".data).drop 15
        = '\n' :: (hist ++ '\n' :: "-->".data) from rfl]
    have htw : ('\n' :: (hist ++ '\n' :: "-->".data)).takeWhile pyWsChar = ['\n'] := by
      rw [List.takeWhile_cons, if_pos (by decide)]
      cases hist with
      | nil => exact absurd rfl hne
      | cons h0 hs =>
        rw [List.cons_append, List.takeWhile_cons, if_neg (by simp [hhead h0 rfl])]
    rw [htw, show nlPositions ['\n'] = [0] from by decide]
    unfold tryNl
    rw [show ('\n' :: (hist ++ '\n' :: "-->".data)).drop (0 + 1)
        = hist ++ '\n' :: "-->".data from rfl]
    rw [show ('\n' :: "-->".data : Str) = '\n' :: "-->".data from rfl,
      findBefore_at_nl "-->".data "-->".data (by decide) hist hnl]
  rw [show ("<!-- QUIVER_METADATA".data ++ '\n' :: hist ++ '\n' :: "-->".data)
      = '<' :: ("!-- QUIVER_METADATA".data ++ '\n' :: hist ++ '\n' :: "-->".data) from rfl] at hm ⊢
  rw [show findMeta ('<' :: ("!-- QUIVER_METADATA".data ++ '\n' :: hist ++ '\n' :: "-->".data))
      = (match matchMetaAt ('<' :: ("!-- QUIVER_METADATA".data ++ '\n' :: hist
          ++ '\n' :: "-->".data)) with
        | some g => some g
        | none => findMeta ("!-- QUIVER_METADATA".data ++ '\n' :: hist
            ++ '\n' :: "-->".data)) from rfl, hm]

theorem histLine_ne_nil (h : List Int) : histLine h ≠ [] := by
  unfold histLine
  by_cases he : h.isEmpty <;> simp [he]

theorem histLine_head (h : List Int) : (histLine h).head? = some 'h' := by
  unfold histLine
  by_cases he : h.isEmpty <;> simp [he]

theorem histLine_no_nl (h : List Int) : '\n' ∉ histLine h := by
  intro hmem
  unfold histLine at hmem
  by_cases he : h.isEmpty
  · rw [if_pos he] at hmem
    exact absurd hmem (by decide)
  · rw [if_neg he] at hmem
    rcases List.mem_append.mp hmem with h1 | h1
    · rcases List.mem_append.mp h1 with h2 | h2
      · exact absurd h2 (by decide)
      · rcases mem_joinSep (", ".data) _ '\n' h2 with h3 | ⟨x, hx, hcx⟩
        · exact absurd h3 (by decide)
        · obtain ⟨i, _, rfl⟩ := List.mem_map.mp hx
          rcases intStr_chars i '\n' hcx with h4 | h4
          · exact absurd h4 (by decide)
          · exact absurd h4 (by decide)
    · exact absurd h1 (by decide)

theorem joinSep_head (sep : Str) (x : Str) (xs : List Str) (hx : x ≠ []) :
    (joinSep sep (x :: xs)).head? = x.head? := by
  cases xs with
  | nil => rfl
  | cons y ys =>
    rcases x with _ | ⟨a, x'⟩
    · exact absurd rfl hx
    · rfl

theorem joinSep_ne_nil (sep : Str) (x : Str) (xs : List Str) (hx : x ≠ []) :
    joinSep sep (x :: xs) ≠ [] := by
  cases xs with
  | nil => exact hx
  | cons y ys =>
    rcases x with _ | ⟨a, x'⟩
    · exact absurd rfl hx
    · simp [joinSep]

theorem join_comma (c : Char) (s : Str) (x : Str) (xs : List Str) :
    joinSep (c :: s) (x :: xs) = joinSep [c] (x :: xs.map (s ++ ·)) := by
  induction xs generalizing x with
  | nil => rfl
  | cons y ys ih =>
    have h1 : joinSep (c :: s) (x :: y :: ys) = x ++ (c :: s) ++ joinSep (c :: s) (y :: ys) := by
      simp [joinSep]
    rw [h1, ih y]
    have h2 : (y :: ys).map (s ++ ·) = (s ++ y) :: ys.map (s ++ ·) := rfl
    have h3 : joinSep [c] (x :: ((s ++ y) :: ys.map (s ++ ·)))
        = x ++ [c] ++ joinSep [c] ((s ++ y) :: ys.map (s ++ ·)) := by
      simp [joinSep]
    rw [List.map_cons, h3]
    have h4 : joinSep [c] ((s ++ y) :: ys.map (s ++ ·))
        = s ++ joinSep [c] (y :: ys.map (s ++ ·)) := by
      cases hys : ys.map (s ++ ·) with
      | nil => rfl
      | cons z zs => simp [joinSep, List.append_assoc]
    rw [h4]
    simp [List.append_assoc]

theorem mem_join_intStr (H : List Int) :
    ∀ c ∈ joinSep ", ".data (H.map intStr),
      c.isDigit = true ∨ c = ',' ∨ c = ' ' ∨ c = '-' := by
  intro c hc
  rcases mem_joinSep (", ".data) _ c hc with h | ⟨x, hx, hcx⟩
  · rcases List.mem_cons.mp h with rfl | h
    · exact Or.inr (Or.inl rfl)
    · rcases List.mem_cons.mp h with rfl | h
      · exact Or.inr (Or.inr (Or.inl rfl))
      · cases h
  · obtain ⟨i, _, rfl⟩ := List.mem_map.mp hx
    rcases intStr_chars i c hcx with h | rfl
    · exact Or.inl h
    · exact Or.inr (Or.inr (Or.inr rfl))

theorem splitFirst_append (c : Char) (x y : Str) (hx : c ∉ x) :
    splitFirst c (x ++ c :: y) = (x, y) := by
  induction x with
  | nil => simp [splitFirst]
  | cons a x ih =>
    have ha : ¬(a = c) := fun h => hx (by rw [h]; exact List.mem_cons_self _ _)
    rw [List.cons_append]
    simp only [splitFirst, ha, if_false, ih (fun h => hx (List.mem_cons_of_mem _ h))]

theorem mapOpt_map {α β : Type} (f : β → Option α) (g : α → β) (l : List α)
    (h : ∀ x ∈ l, f (g x) = some x) : mapOpt f (l.map g) = some l := by
  induction l with
  | nil => rfl
  | cons x xs ih =>
    rw [List.map_cons]
    simp only [mapOpt, h x (List.mem_cons_self _ _),
      ih (fun y hy => h y (List.mem_cons_of_mem _ hy))]
    rfl

theorem parseToken_intStr (i : Int) : parseToken (intStr i) = some i := by
  unfold parseToken
  rw [pyStrip_intStr]
  rw [stripSet_no_op ['"'] (intStr i) ?h1 ?h2, stripSet_no_op [Char.ofNat 39] (intStr i) ?h3 ?h4,
    pyInt_intStr]
  case h1 =>
    intro a ha
    rcases intStr_chars i a (mem_of_head? ha) with h | rfl
    · intro hmem
      simp only [List.mem_singleton] at hmem
      rw [hmem] at h
      exact absurd h (by decide)
    · decide
  case h2 =>
    intro b hb
    rcases intStr_chars i b (mem_of_getLast? hb) with h | rfl
    · intro hmem
      simp only [List.mem_singleton] at hmem
      rw [hmem] at h
      exact absurd h (by decide)
    · decide
  case h3 =>
    intro a ha
    rcases intStr_chars i a (mem_of_head? ha) with h | rfl
    · intro hmem
      simp only [List.mem_singleton] at hmem
      rw [hmem] at h
      exact absurd h (by decide)
    · decide
  case h4 =>
    intro b hb
    rcases intStr_chars i b (mem_of_getLast? hb) with h | rfl
    · intro hmem
      simp only [List.mem_singleton] at hmem
      rw [hmem] at h
      exact absurd h (by decide)
    · decide

theorem parseToken_space_intStr (i : Int) : parseToken (' ' :: intStr i) = some i := by
  have h : pyStrip (' ' :: intStr i) = pyStrip (intStr i) :=
    pyStrip_cons_ws ' ' _ (by decide)
  unfold parseToken
  rw [h, pyStrip_intStr]
  have h2 := parseToken_intStr i
  unfold parseToken at h2
  rwa [pyStrip_intStr] at h2

theorem parseHistoryValue_bracket (H : List Int) (hne : H ≠ []) :
    parseHistoryValue ('[' :: (joinSep ", ".data (H.map intStr) ++ [']'])) = H := by
  rcases H with _ | ⟨h0, H'⟩
  · exact absurd rfl hne
  set J := joinSep ", ".data ((h0 :: H').map intStr) with hJ
  have hJne : J ≠ [] := by
    rw [hJ, List.map_cons]
    exact joinSep_ne_nil _ _ _ (intStr_ne_nil h0)
  have hJmem : ∀ c ∈ J, c.isDigit = true ∨ c = ',' ∨ c = ' ' ∨ c = '-' :=
    mem_join_intStr (h0 :: H')
  have hJbr : ∀ c ∈ J, c ∉ (['[', ']'] : List Char) := by
    intro c hc hmem
    rcases hJmem c hc with h | rfl | rfl | rfl
    · rcases List.mem_cons.mp hmem with rfl | hmem
      · exact absurd h (by decide)
      · simp only [List.mem_singleton] at hmem
        rw [hmem] at h
        exact absurd h (by decide)
    · exact absurd hmem (by decide)
    · exact absurd hmem (by decide)
    · exact absurd hmem (by decide)
  have hstrip : stripSet ['[', ']'] ('[' :: (J ++ [']'])) = J := by
    unfold stripSet
    rw [List.dropWhile_cons, if_pos (by decide),
      dropWhile_eq_self_of_head _ _ (fun a ha => by
        have : (J ++ [']']).head? = J.head? := by
          rcases J with _ | ⟨j, J''⟩
          · exact absurd rfl hJne
          · rfl
        rw [this] at ha
        simp only [decide_eq_false_iff_not]
        exact hJbr a (mem_of_head? ha)),
      dropTrail_concat _ _ ']' (by decide),
      dropTrail_eq_self_of_last _ _ (fun b hb => by
        simp only [decide_eq_false_iff_not]
        exact hJbr b (mem_of_getLast? hb))]
  unfold parseHistoryValue
  rw [hstrip]
  rw [show J.isEmpty = false from by
    rcases J with _ | ⟨j, J''⟩
    · exact absurd rfl hJne
    · rfl]
  simp only [Bool.false_eq_true, if_false]
  have htoks : historyTokens J = intStr h0 :: H'.map (fun i => ' ' :: intStr i) := by
    unfold historyTokens
    have hsplit : splitChar ',' J = intStr h0 :: H'.map (fun i => ' ' :: intStr i) := by
      rw [hJ, List.map_cons, show (", ".data : Str) = ',' :: [' '] from rfl,
        join_comma ',' [' '] (intStr h0) (H'.map intStr), List.map_map]
      rw [show ((fun x => [' '] ++ x) ∘ intStr) = (fun i => ' ' :: intStr i) from by
        funext i; rfl]
      refine splitChar_joinSep ',' _ (by simp) ?_
      intro x hx
      rcases List.mem_cons.mp hx with rfl | hx
      · intro hmem
        rcases intStr_chars h0 ',' hmem with h | h
        · exact absurd h (by decide)
        · exact absurd h (by decide)
      · obtain ⟨i, _, rfl⟩ := List.mem_map.mp hx
        intro hmem
        rcases List.mem_cons.mp hmem with h | hmem
        · exact absurd h (by decide)
        · rcases intStr_chars i ',' hmem with h | h
          · exact absurd h (by decide)
          · exact absurd h (by decide)
    rw [hsplit]
    refine List.filter_eq_self.mpr ?_
    intro t ht
    rcases List.mem_cons.mp ht with rfl | ht
    · rw [pyStrip_intStr]
      simp only [Bool.not_eq_true']
      rcases hrep : intStr h0 with _ | ⟨c, cs⟩
      · exact absurd hrep (intStr_ne_nil h0)
      · rfl
    · obtain ⟨i, _, rfl⟩ := List.mem_map.mp ht
      rw [pyStrip_cons_ws ' ' _ (by decide), pyStrip_intStr]
      simp only [Bool.not_eq_true']
      rcases hrep : intStr i with _ | ⟨c, cs⟩
      · exact absurd hrep (intStr_ne_nil i)
      · rfl
  rw [htoks]
  have hmo : mapOpt parseToken (intStr h0 :: H'.map (fun i => ' ' :: intStr i))
      = some (h0 :: H') := by
    simp only [mapOpt, parseToken_intStr h0,
      mapOpt_map parseToken (fun i => ' ' :: intStr i) H'
        (fun i _ => parseToken_space_intStr i)]
    rfl
  rw [hmo]

theorem pyStrip_histLine (H : List Int) : pyStrip (histLine H) = histLine H := by
  by_cases he : H.isEmpty
  · rw [show histLine H = "history: []".data from by unfold histLine; rw [if_pos he]]
    decide
  · refine pyStrip_no_op _ ?_ ?_
    · intro a ha
      rw [histLine_head H] at ha
      cases ha
      decide
    · intro b hb
      have hrep : histLine H
          = ("history: [".data ++ joinSep ", ".data (H.map intStr)) ++ [']'] := by
        unfold histLine
        rw [if_neg he]
      rw [hrep, List.getLast?_concat] at hb
      cases hb
      decide

theorem processMetaLine_histLine (md : Metadata) (H : List Int) :
    processMetaLine md (histLine H) = { md with history := some H } := by
  by_cases he : H.isEmpty
  · have hH : H = [] := by simpa [List.isEmpty_iff] using he
    subst hH
    have hrep : histLine [] = "history: []".data := rfl
    rw [hrep]
    unfold processMetaLine
    rw [show pyStrip "history: []".data = "history: []".data from by decide,
      if_pos (show ':' ∈ "history: []".data from by decide),
      show splitFirst ':' "history: []".data = ("history".data, " []".data) from by decide,
      show pyStrip ("history".data, " []".data).1 = "history".data from by decide,
      if_pos rfl,
      show pyStrip ("history".data, " []".data).2 = "[]".data from by decide,
      show parseHistoryValue "[]".data = ([] : List Int) from by decide]
  · have hne : H ≠ [] := by simpa [List.isEmpty_iff] using he
    have hrep : histLine H
        = "history".data
          ++ ':' :: (' ' :: ('[' :: (joinSep ", ".data (H.map intStr) ++ [']']))) := by
      unfold histLine
      rw [if_neg he]
      simp
    unfold processMetaLine
    rw [pyStrip_histLine]
    rw [if_pos (show ':' ∈ histLine H from by
      rw [hrep]
      exact List.mem_append.mpr (Or.inr (List.mem_cons_self _ _)))]
    rw [show splitFirst ':' (histLine H)
        = ("history".data, ' ' :: ('[' :: (joinSep ", ".data (H.map intStr) ++ [']'])))
        from by rw [hrep]; exact splitFirst_append ':' _ _ (by decide)]
    have hkey : pyStrip ("history".data,
        ' ' :: ('[' :: (joinSep ", ".data (H.map intStr) ++ [']']))).1 = "history".data := by
      show pyStrip "history".data = "history".data
      decide
    rw [hkey, if_pos rfl]
    have hval : pyStrip ("history".data,
        ' ' :: ('[' :: (joinSep ", ".data (H.map intStr) ++ [']']))).2
        = '[' :: (joinSep ", ".data (H.map intStr) ++ [']']) := by
      show pyStrip (' ' :: ('[' :: (joinSep ", ".data (H.map intStr) ++ [']']))) = _
      rw [pyStrip_cons_ws ' ' _ (by decide)]
      refine pyStrip_no_op _ ?_ ?_
      · intro a ha
        cases ha
        decide
      · intro b hb
        rw [show '[' :: (joinSep ", ".data (H.map intStr) ++ [']'])
            = ('[' :: joinSep ", ".data (H.map intStr)) ++ [']'] from rfl,
          List.getLast?_concat] at hb
        cases hb
        decide
    rw [hval, parseHistoryValue_bracket H hne]

theorem extractMetadata_histLine (content : Str) (H : List Int)
    (hfind : findMeta content = some (histLine H)) :
    extractMetadata content = ⟨some H, []⟩ := by
  unfold extractMetadata
  rw [hfind]
  show (splitChar '\n' (pyStrip (histLine H))).foldl processMetaLine ⟨some [], []⟩
    = ({ history := some H, extra := [] } : Metadata)
  rw [pyStrip_histLine, splitChar_of_not_mem '\n' _ (histLine_no_nl H)]
  rw [show ([histLine H] : List Str).foldl processMetaLine ⟨some [], []⟩
      = processMetaLine ⟨some [], []⟩ (histLine H) from rfl,
    processMetaLine_histLine]

/-! ## Round trip (C1): rebuilding the serialized rows from the entries -/

theorem dictInsert_fresh (d : List (Str × Str)) (k v : Str)
    (hk : ∀ p ∈ d, p.1 ≠ k) : dictInsert d k v = d ++ [(k, v)] := by
  induction d with
  | nil => rfl
  | cons p rest ih =>
    rw [show dictInsert (p :: rest) k v
        = if p.1 = k then (k, v) :: rest else p :: dictInsert rest k v from by
      cases p; rfl]
    rw [if_neg (hk p (List.mem_cons_self _ _)),
      ih (fun q hq => hk q (List.mem_cons_of_mem _ hq))]
    rfl

theorem foldl_insert_fresh (headers cells : List Str) :
    ∀ (l : List Nat) (init : List (Str × Str)),
    l.Nodup → (∀ i ∈ l, i < headers.length) →
    (∀ i ∈ l, ∀ p ∈ init, p.1 ≠ headers.getD i []) →
    (∀ i ∈ l, ∀ j ∈ l, headers.getD i [] = headers.getD j [] → i = j) →
    l.foldl (fun d i =>
        if i < headers.length then dictInsert d (headers.getD i []) (cells.getD i []) else d)
      init
      = init ++ l.map (fun i => (headers.getD i [], cells.getD i [])) := by
  intro l
  induction l with
  | nil => intro init _ _ _ _; simp
  | cons i l ih =>
    intro init hnd hbound hfresh hinj
    rw [List.foldl_cons, if_pos (hbound i (List.mem_cons_self _ _))]
    rw [dictInsert_fresh init _ _ (fun p hp => hfresh i (List.mem_cons_self _ _) p hp)]
    rw [ih (init ++ [(headers.getD i [], cells.getD i [])])
      (List.Nodup.of_cons hnd)
      (fun j hj => hbound j (List.mem_cons_of_mem _ hj))
      ?fresh
      (fun j hj j' hj' => hinj j (List.mem_cons_of_mem _ hj) j' (List.mem_cons_of_mem _ hj'))]
    · simp
    case fresh =>
      intro j hj p hp
      rcases List.mem_append.mp hp with hp | hp
      · exact hfresh j (List.mem_cons_of_mem _ hj) p hp
      · simp only [List.mem_singleton] at hp
        rw [hp]
        intro hkey
        have hij : i = j := hinj i (List.mem_cons_self _ _) j (List.mem_cons_of_mem _ hj) hkey
        rw [hij] at hnd
        exact (List.nodup_cons.mp hnd).1 hj

theorem nodup_getD_inj (headers : List Str) (hnd : headers.Nodup) :
    ∀ i j, i < headers.length → j < headers.length →
    headers.getD i [] = headers.getD j [] → i = j := by
  intro i j hi hj heq
  rw [List.getD_eq_getElem headers [] hi, List.getD_eq_getElem headers [] hj] at heq
  have hinj := List.nodup_iff_injective_get.mp hnd
  have hfin : (⟨i, hi⟩ : Fin headers.length) = ⟨j, hj⟩ := by
    apply hinj
    simpa [List.get_eq_getElem] using heq
  exact Fin.mk_eq_mk.mp hfin

theorem buildMeta_pairs (headers cells : List Str) (hnd : headers.Nodup)
    (hne : headers ≠ []) :
    buildMeta headers cells headers.length
      = (List.range' 1 (headers.length - 1)).map
          (fun i => (headers.getD i [], cells.getD i [])) := by
  unfold buildMeta
  rw [foldl_insert_fresh headers cells (List.range' 1 (headers.length - 1)) []
    (List.nodup_range' 1 (headers.length - 1))
    (fun i hi => by
      have := List.mem_range'_1.mp hi
      have hlen : 1 ≤ headers.length := by
        cases headers with
        | nil => exact absurd rfl hne
        | cons h hs => simp
      omega)
    (fun i _ p hp => absurd hp (List.not_mem_nil p))
    (fun i hi j hj heq => by
      have hi' := List.mem_range'_1.mp hi
      have hj' := List.mem_range'_1.mp hj
      have hlen : 1 ≤ headers.length := by
        cases headers with
        | nil => exact absurd rfl hne
        | cons h hs => simp
      exact nodup_getD_inj headers hnd i j (by omega) (by omega) heq)]
  simp

theorem map_range_getD {α : Type u_1} (xs : List α) (d : α) :
    (List.range xs.length).map (fun k => xs.getD k d) = xs := by
  induction xs with
  | nil => rfl
  | cons x xs ih =>
    have h1 : (x :: xs).length = xs.length + 1 := rfl
    rw [h1, List.range_succ_eq_map, List.map_cons, List.map_map]
    have h2 : ((fun k => (x :: xs).getD k d) ∘ Nat.succ) = (fun k => xs.getD k d) := by
      funext k
      simp
    rw [h2, ih]
    rfl

theorem drop_one_map_range {α : Type u_1} (xs : List α) (d : α) :
    xs.drop 1 = (List.range' 1 (xs.length - 1)).map (fun i => xs.getD i d) := by
  cases xs with
  | nil => rfl
  | cons x xs =>
    rw [List.drop_one, show (x :: xs).tail = xs from rfl,
      show (x :: xs).length - 1 = xs.length from by simp,
      List.range'_eq_map_range, List.map_map]
    rw [show ((fun i => (x :: xs).getD i d) ∘ (fun i => 1 + i)) = (fun k => xs.getD k d) from by
      funext k
      simp [Nat.add_comm 1 k]]
    exact (map_range_getD xs d).symm

theorem dictGet_pairs (key : Nat → Str) (val : Nat → Str) :
    ∀ (l : List Nat) (i : Nat), i ∈ l →
    (∀ a ∈ l, ∀ b ∈ l, key a = key b → a = b) →
    dictGet (l.map (fun j => (key j, val j))) (key i) = some (val i) := by
  intro l
  induction l with
  | nil => intro i hi; cases hi
  | cons j l ih =>
    intro i hi hinj
    rw [List.map_cons]
    rw [show dictGet ((key j, val j) :: l.map (fun j => (key j, val j))) (key i)
        = if key j = key i then some (val j)
          else dictGet (l.map (fun j => (key j, val j))) (key i) from rfl]
    by_cases hkey : key j = key i
    · rw [if_pos hkey]
      have : j = i := hinj j (List.mem_cons_self _ _) i hi hkey
      rw [this]
    · rw [if_neg hkey]
      rcases List.mem_cons.mp hi with rfl | hi'
      · exact absurd rfl hkey
      · exact ih i hi' (fun a ha b hb => hinj a (List.mem_cons_of_mem _ ha)
          b (List.mem_cons_of_mem _ hb))

theorem lookup_buildMeta (headers cells : List Str) (hnd : headers.Nodup)
    (hne : headers ≠ []) (hlen : cells.length = headers.length) :
    (headers.drop 1).map
        (fun h => (dictGet (buildMeta headers cells headers.length) h).getD [])
      = cells.drop 1 := by
  rw [buildMeta_pairs headers cells hnd hne,
    drop_one_map_range headers ([] : Str), List.map_map]
  rw [drop_one_map_range cells ([] : Str), hlen]
  refine List.map_congr_left ?_
  intro i hi
  have hi' := List.mem_range'_1.mp hi
  have hlen1 : 1 ≤ headers.length := by
    cases headers with
    | nil => exact absurd rfl hne
    | cons h hs => simp
  rw [Function.comp_apply,
    dictGet_pairs (fun j => headers.getD j []) (fun j => cells.getD j [])
      (List.range' 1 (headers.length - 1)) i hi
      (fun a ha b hb heq => by
        have ha' := List.mem_range'_1.mp ha
        have hb' := List.mem_range'_1.mp hb
        exact nodup_getD_inj headers hnd a b (by omega) (by omega) heq)]
  rfl

theorem rowLine_mkRowStr (headers cells : List Str) (idx : Int) (hnd : headers.Nodup)
    (hne : headers ≠ []) (hlen : cells.length = headers.length) :
    rowLine headers ⟨cells.getD 0 [], buildMeta headers cells cells.length, idx⟩
      = mkRowStr cells := by
  unfold rowLine
  rw [show (Entry.mk (cells.getD 0 []) (buildMeta headers cells cells.length) idx).metadata
      = buildMeta headers cells cells.length from rfl, hlen,
    lookup_buildMeta headers cells hnd hne hlen]
  congr 1
  cases cells with
  | nil =>
    exfalso
    apply hne
    exact List.length_eq_zero.mp (by simpa using hlen.symm)
  | cons c cs => rfl

theorem filterMap_eq_map_of {α β : Type} (f : α → Option β) (g : α → β) (l : List α)
    (h : ∀ x ∈ l, f x = some (g x)) : l.filterMap f = l.map g := by
  induction l with
  | nil => rfl
  | cons x xs ih =>
    rw [List.filterMap_cons, h x (List.mem_cons_self _ _), List.map_cons,
      ih (fun y hy => h y (List.mem_cons_of_mem _ hy))]

theorem extractEntries_map (headers : List Str) (rows : List (List Str × Int))
    (hne : headers ≠ []) (hnu : ¬lowerStr (headers.getLastD []) = "used".data)
    (hcells : ∀ r ∈ rows, r.1 ≠ []) :
    extractEntries headers rows
      = rows.map (fun r => ⟨r.1.getD 0 [], buildMeta headers r.1 r.1.length, r.2⟩) := by
  unfold extractEntries
  rw [show headers.isEmpty = false from by
    cases headers with
    | nil => exact absurd rfl hne
    | cons h hs => rfl]
  simp only [Bool.false_eq_true, if_false]
  refine filterMap_eq_map_of _ _ rows ?_
  intro r hr
  unfold entryOf
  rw [show decide (lowerStr (headers.getLastD []) = "used".data) = false from
    decide_eq_false hnu]
  have hlen : ¬(r.1.length < 1) := by
    cases hcl : r.1 with
    | nil => exact absurd hcl (hcells r hr)
    | cons a l => simp
  rw [if_neg hlen]
  simp

theorem enumFrom_fst (R : List (List Str × Int)) :
    ∀ base, consecFrom base R → enumFrom base (R.map Prod.fst) = R := by
  induction R with
  | nil => intro base _; rfl
  | cons r rs ih =>
    intro base hc
    rw [List.map_cons]
    show (r.1, base) :: enumFrom (base + 1) (rs.map Prod.fst) = r :: rs
    rw [ih (base + 1) hc.2]
    congr 1
    have h1 : r.2 = base := hc.1
    cases r
    simp at h1 ⊢
    exact h1.symm

theorem extractTableAux_src (ls : List Str) :
    ∀ (inT : Bool) (hs : List Str) (rs : List (List Str × Int)) (idx : Int),
    (∀ l ∈ ls, '\n' ∉ l) →
    (hs = [] ∨ ∃ l, '\n' ∉ l ∧ hs = rowCells (pyStrip l)) →
    (∀ r ∈ rs, ∃ l, '\n' ∉ l ∧ r.1 = rowCells (pyStrip l)) →
    ((extractTableAux ls inT hs rs idx).headers = []
      ∨ ∃ l, '\n' ∉ l ∧ (extractTableAux ls inT hs rs idx).headers = rowCells (pyStrip l))
    ∧ ∀ r ∈ (extractTableAux ls inT hs rs idx).rows,
        ∃ l, '\n' ∉ l ∧ r.1 = rowCells (pyStrip l) := by
  induction ls with
  | nil => intro inT hs rs idx _ hhs hrs; exact ⟨hhs, hrs⟩
  | cons l ls ih =>
    intro inT hs rs idx hnl hhs hrs
    have hl : '\n' ∉ l := hnl l (List.mem_cons_self _ _)
    have hnl' : ∀ l' ∈ ls, '\n' ∉ l' := fun l' hl' => hnl l' (List.mem_cons_of_mem _ hl')
    simp only [extractTableAux]
    by_cases h1 : isRow (pyStrip l)
    · simp only [h1, if_true]
      cases inT with
      | false =>
        simpa using ih true (rowCells (pyStrip l)) rs idx hnl' (Or.inr ⟨l, hl, rfl⟩) hrs
      | true =>
        by_cases h2 : isSep (pyStrip l)
        · simpa [h2] using ih true hs rs idx hnl' hhs hrs
        · have hrs' : ∀ r ∈ rs ++ [(rowCells (pyStrip l), idx)],
              ∃ l', '\n' ∉ l' ∧ r.1 = rowCells (pyStrip l') := by
            intro r hr
            rcases List.mem_append.mp hr with hr | hr
            · exact hrs r hr
            · simp only [List.mem_singleton] at hr
              exact ⟨l, hl, by rw [hr]⟩
          simpa [h2] using ih true hs _ (idx + 1) hnl' hhs hrs'
    · simp only [h1, Bool.false_eq_true, if_false]
      by_cases h2 : (inT && !(pyStrip l).isEmpty && !isPre ['#'] (pyStrip l)) = true
      · simp only [h2, if_true]
        by_cases h3 : isSep (pyStrip l)
        · simpa [h3] using ih inT hs rs idx hnl' hhs hrs
        · simp only [h3, Bool.false_eq_true, if_false]
          exact ⟨hhs, hrs⟩
      · simp only [h2, Bool.false_eq_true, if_false]
        exact ih inT hs rs idx hnl' hhs hrs

theorem metaIsEmpty_false (m : Metadata) (H : List Int) (h : m.history = some H) :
    metaIsEmpty m = false := by
  simp [metaIsEmpty, h]

theorem mem_mkRowStr (cells : List Str) :
    ∀ c ∈ mkRowStr cells, c = '|' ∨ c = ' ' ∨ ∃ x ∈ cells, c ∈ x := by
  intro c hc
  rw [mkRowStr_unfold] at hc
  rcases List.mem_cons.mp hc with rfl | hc
  · exact Or.inl rfl
  rcases List.mem_cons.mp hc with rfl | hc
  · exact Or.inr (Or.inl rfl)
  rcases List.mem_append.mp hc with hc | hc
  · rcases mem_joinSep (" | ".data) cells c hc with h | ⟨x, hx, hcx⟩
    · rcases List.mem_cons.mp h with rfl | h
      · exact Or.inr (Or.inl rfl)
      rcases List.mem_cons.mp h with rfl | h
      · exact Or.inl rfl
      rcases List.mem_cons.mp h with rfl | h
      · exact Or.inr (Or.inl rfl)
      · cases h
    · exact Or.inr (Or.inr ⟨x, hx, hcx⟩)
  · rcases List.mem_cons.mp hc with rfl | hc
    · exact Or.inr (Or.inl rfl)
    · simp only [List.mem_singleton] at hc
      exact Or.inl hc

theorem mem_sepRowOf (headers : List Str) :
    ∀ c ∈ sepRowOf headers, c = '|' ∨ c = '-' := by
  intro c hc
  rw [sepRowOf_unfold] at hc
  rcases List.mem_cons.mp hc with rfl | hc
  · exact Or.inl rfl
  rcases List.mem_append.mp hc with hc | hc
  · rcases mem_joinSep (['|'] : Str) _ c hc with h | ⟨x, hx, hcx⟩
    · simp only [List.mem_singleton] at h
      exact Or.inl h
    · obtain ⟨_, _, rfl⟩ := List.mem_map.mp hx
      rcases List.mem_cons.mp hcx with rfl | h
      · exact Or.inr rfl
      rcases List.mem_cons.mp h with rfl | h
      · exact Or.inr rfl
      rcases List.mem_cons.mp h with rfl | h
      · exact Or.inr rfl
      · cases h
  · simp only [List.mem_singleton] at hc
    exact Or.inl hc

theorem containsSub_mkRowStr_false (cells : List Str) (hne : cells ≠ [])
    (hcl : ∀ x ∈ cells, containsSub "<!--".data x = false) :
    containsSub "<!--".data (mkRowStr cells) = false := by
  refine (Bool.eq_false_iff).mpr ?_
  intro hcon
  have hlt : '<' ∈ mkRowStr cells := containsSub_head_mem '<' _ _ hcon
  rcases mem_mkRowStr cells '<' hlt with h | h | ⟨x, hx, hcx⟩
  · exact absurd h (by decide)
  · exact absurd h (by decide)
  · -- the opener must then sit inside a single cell: use the straddle lemma
    have hpads : mkRowStr cells
        = '|' :: (joinSep ['|'] (cells.map padCell) ++ ['|']) := by
      rw [mkRowStr_unfold, ← spaced_join cells hne]
      simp
    rw [hpads] at hcon
    have h1 := containsSub_append_cons "<!--".data '|' (by decide) []
      (joinSep ['|'] (cells.map padCell) ++ ['|']) (by simpa using hcon)
    rcases h1 with h1 | h1
    · rw [containsSub_nil_false _ (by decide)] at h1; cases h1
    · have h2 := containsSub_append_cons "<!--".data '|' (by decide)
        (joinSep ['|'] (cells.map padCell)) [] (by simpa using h1)
      rcases h2 with h2 | h2
      · have h3 := containsSub_joinSep_false "<!--".data (by decide) '|' (by decide)
          (cells.map padCell) ?cl
        · rw [h3] at h2; cases h2
        case cl =>
          intro y hy
          obtain ⟨xc, hxc, rfl⟩ := List.mem_map.mp hy
          refine (Bool.eq_false_iff).mpr ?_
          intro hpad
          have h4 := containsSub_append_cons "<!--".data ' ' (by decide) []
            (xc ++ [' ']) (by simpa [padCell] using hpad)
          rcases h4 with h4 | h4
          · rw [containsSub_nil_false _ (by decide)] at h4; cases h4
          · have h5 := containsSub_append_cons "<!--".data ' ' (by decide) xc []
              (by simpa using h4)
            rcases h5 with h5 | h5
            · rw [hcl xc hxc] at h5; cases h5
            · rw [containsSub_nil_false _ (by decide)] at h5; cases h5
      · rw [containsSub_nil_false _ (by decide)] at h2; cases h2

theorem containsSub_sepRowOf_false (headers : List Str) :
    containsSub "<!--".data (sepRowOf headers) = false := by
  refine (Bool.eq_false_iff).mpr ?_
  intro hcon
  have hlt : '<' ∈ sepRowOf headers := containsSub_head_mem '<' _ _ hcon
  rcases mem_sepRowOf headers '<' hlt with h | h
  · exact absurd h (by decide)
  · exact absurd h (by decide)

theorem joinSep_concat_blank (c : Char) (xs : List Str) (hne : xs ≠ []) :
    joinSep [c] (xs ++ [[]]) = joinSep [c] xs ++ [c] := by
  rw [joinSep_append [c] xs [[]] hne (by simp)]
  simp [joinSep]

theorem extractTable_headers_ne (lines : List Str)
    (hex : lines.any (fun l => isRow (pyStrip l)) = true) :
    (extractTable lines).headers ≠ [] := by
  unfold extractTable
  obtain ⟨l0, hl0, hrow⟩ := List.any_eq_true.mp hex
  clear hex
  induction lines with
  | nil => cases hl0
  | cons l ls ih =>
    simp only [extractTableAux]
    by_cases h1 : isRow (pyStrip l)
    · simp only [h1, if_true, Bool.not_false, if_true]
      rw [extractTableAux_headers_stay]
      exact rowCells_ne_nil (pyStrip l)
    · simp only [h1, Bool.false_eq_true, if_false, Bool.false_and, ite_self]
      rcases List.mem_cons.mp hl0 with rfl | hl0'
      · exact absurd hrow h1
      · exact ih hl0'

/-! ## Round trip (C1): the main theorem -/

/-- C1: for every well-formed input text, parsing the serialization of the
parsed text yields the same document as parsing the text directly, restricted
to the entries, the column headers and the history. -/
theorem claim_C1_roundtrip (content : Str) (hwf : wellFormedB content = true) :
    (parseContent (serializeFile (parseContent content))).entries
        = (parseContent content).entries
    ∧ (parseContent (serializeFile (parseContent content))).headers
        = (parseContent content).headers
    ∧ (parseContent (serializeFile (parseContent content))).metadata.history
        = (parseContent content).metadata.history := by
  simp only [wellFormedB, Bool.and_eq_true] at hwf
  obtain ⟨⟨⟨⟨hany, hheads⟩, hnodup⟩, hrows⟩, hpre⟩ := hwf
  have hraw : (parseContent content).raw_content = content := rfl
  have hH : (parseContent content).headers
      = (extractTable (splitChar '\n' content)).headers := rfl
  have hHhead : ∀ h ∈ (extractTable (splitChar '\n' content)).headers,
      ¬lowerStr h = "used".data ∧ containsSub "<!--".data h = false := by
    intro h hh
    have h1 := List.all_eq_true.mp hheads h hh
    simp only [Bool.and_eq_true, Bool.not_eq_true', decide_eq_false_iff_not,
      cleanStr] at h1
    exact h1
  have hNodup : (extractTable (splitChar '\n' content)).headers.Nodup :=
    of_decide_eq_true hnodup
  have hRfacts : ∀ r ∈ (extractTable (splitChar '\n' content)).rows,
      r.1.length = (extractTable (splitChar '\n' content)).headers.length
      ∧ (∃ x ∈ r.1, ∃ ch ∈ x, sepChar ch = false)
      ∧ ∀ x ∈ r.1, containsSub "<!--".data x = false := by
    intro r hr
    have h1 := List.all_eq_true.mp hrows r hr
    simp only [Bool.and_eq_true, decide_eq_true_eq] at h1
    refine ⟨h1.1.1, ?_, ?_⟩
    · obtain ⟨x, hx, hch⟩ := List.any_eq_true.mp h1.1.2
      obtain ⟨ch, hchx, hsep⟩ := List.any_eq_true.mp hch
      exact ⟨x, hx, ch, hchx, by simpa using hsep⟩
    · intro x hx
      have h2 := List.all_eq_true.mp h1.2 x hx
      simpa [cleanStr] using h2
  have hPre : ∀ l ∈ takePre (splitChar '\n' content),
      containsSub "<!--".data l = false := by
    intro l hl
    have h1 := List.all_eq_true.mp hpre l hl
    simpa [cleanStr] using h1
  have hHne : (extractTable (splitChar '\n' content)).headers ≠ [] :=
    extractTable_headers_ne _ hany
  have hsrc := extractTableAux_src (splitChar '\n' content) false [] [] 0
    (splitChar_not_mem '\n' content) (Or.inl rfl)
    (fun r hr => absurd hr (List.not_mem_nil r))
  rw [show extractTableAux (splitChar '\n' content) false [] [] 0
      = extractTable (splitChar '\n' content) from rfl] at hsrc
  have hHstruct : ∀ x ∈ (extractTable (splitChar '\n' content)).headers,
      '|' ∉ x ∧ pyStrip x = x ∧ '\n' ∉ x := by
    intro x hx
    rcases hsrc.1 with hnil | ⟨l, hlnl, hrepr⟩
    · exact absurd hnil hHne
    · rw [hrepr] at hx
      exact ⟨rowCells_no_pipe _ x hx, rowCells_trimmed _ x hx,
        fun hm => hlnl (pyStrip_subset l '\n' (rowCells_subset _ x hx '\n' hm))⟩
  have hRstruct : ∀ r ∈ (extractTable (splitChar '\n' content)).rows,
      ∀ x ∈ r.1, '|' ∉ x ∧ pyStrip x = x ∧ '\n' ∉ x := by
    intro r hr x hx
    obtain ⟨l, hlnl, hrepr⟩ := hsrc.2 r hr
    rw [hrepr] at hx
    exact ⟨rowCells_no_pipe _ x hx, rowCells_trimmed _ x hx,
      fun hm => hlnl (pyStrip_subset l '\n' (rowCells_subset _ x hx '\n' hm))⟩
  have hRne : ∀ r ∈ (extractTable (splitChar '\n' content)).rows, r.1 ≠ [] :=
    (extractTable_rows _).2
  have hconsec : consecFrom 0 (extractTable (splitChar '\n' content)).rows :=
    (extractTable_rows _).1
  obtain ⟨Hh, hHh⟩ := extractMetadata_isSome content
  have hmH : (parseContent content).metadata.history = some Hh := hHh
  have hEnt : (parseContent content).entries
      = (extractTable (splitChar '\n' content)).rows.map
          (fun r => ⟨r.1.getD 0 [],
            buildMeta (extractTable (splitChar '\n' content)).headers r.1 r.1.length,
            r.2⟩) := by
    show extractEntries _ _ = _
    exact extractEntries_map _ _ hHne
      (fun heq => (hHhead _ (getLastD_mem _ [] hHne)).1 heq) hRne
  have hOut : outHeaders (parseContent content)
      = (extractTable (splitChar '\n' content)).headers := by
    show (parseContent content).headers.filter _ = _
    rw [hH]
    refine List.filter_eq_self.mpr ?_
    intro h hh
    simp [(hHhead h hh).1]
  set pre1 := takePre (splitChar '\n' content) with hpre1def
  set lines1 : List Str := (if pre1.isEmpty then [] else
      if (pyStrip (pre1.getLastD [])).isEmpty then pre1 else pre1 ++ [[]]) with hlines1def
  have hSL : serializeLines (parseContent content)
      = lines1 ++ [mkRowStr (extractTable (splitChar '\n' content)).headers,
            sepRowOf (extractTable (splitChar '\n' content)).headers]
          ++ (extractTable (splitChar '\n' content)).rows.map (fun r => mkRowStr r.1)
          ++ [[], "<!-- QUIVER_METADATA".data, histLine Hh, "-->".data] := by
    unfold serializeLines
    simp only []
    rw [hraw, hOut, ← hpre1def, ← hlines1def, metaIsEmpty_false _ Hh hmH, hmH]
    simp only [Bool.false_eq_true, if_false]
    rw [hEnt, List.map_map]
    have hmapeq : (extractTable (splitChar '\n' content)).rows.map
        ((rowLine (extractTable (splitChar '\n' content)).headers) ∘
          (fun r => (⟨r.1.getD 0 [],
            buildMeta (extractTable (splitChar '\n' content)).headers r.1 r.1.length,
            r.2⟩ : Entry)))
        = (extractTable (splitChar '\n' content)).rows.map (fun r => mkRowStr r.1) := by
      refine List.map_congr_left ?_
      intro r hr
      have h1 := rowLine_mkRowStr (extractTable (splitChar '\n' content)).headers
        r.1 r.2 hNodup hHne (hRfacts r hr).1
      simpa using h1
    rw [hmapeq]
    simp [List.append_assoc]
  have hPre1notrow : ∀ l ∈ lines1, isRow (pyStrip l) = false := by
    intro l hl
    rw [hlines1def] at hl
    by_cases h1 : pre1.isEmpty
    · rw [if_pos h1] at hl; cases hl
    · rw [if_neg h1] at hl
      by_cases h2 : (pyStrip (pre1.getLastD [])).isEmpty
      · rw [if_pos h2] at hl
        exact takePre_not_row _ l hl
      · rw [if_neg h2] at hl
        rcases List.mem_append.mp hl with hl | hl
        · exact takePre_not_row _ l hl
        · simp only [List.mem_singleton] at hl
          rw [hl]
          decide
  have hPre1facts : ∀ l ∈ lines1, '\n' ∉ l ∧ containsSub "<!--".data l = false := by
    intro l hl
    rw [hlines1def] at hl
    by_cases h1 : pre1.isEmpty
    · rw [if_pos h1] at hl; cases hl
    · rw [if_neg h1] at hl
      by_cases h2 : (pyStrip (pre1.getLastD [])).isEmpty
      · rw [if_pos h2] at hl
        exact ⟨fun hm => splitChar_not_mem '\n' content l (takePre_subset _ l hl) hm,
          hPre l hl⟩
      · rw [if_neg h2] at hl
        rcases List.mem_append.mp hl with hl | hl
        · exact ⟨fun hm => splitChar_not_mem '\n' content l (takePre_subset _ l hl) hm,
            hPre l hl⟩
        · simp only [List.mem_singleton] at hl
          rw [hl]
          exact ⟨by simp, by decide⟩
  have hLnl : ∀ l ∈ serializeLines (parseContent content), '\n' ∉ l := by
    rw [hSL]
    intro l hl
    rcases List.mem_append.mp hl with hl | hl
    · rcases List.mem_append.mp hl with hl | hl
      · rcases List.mem_append.mp hl with hl | hl
        · exact (hPre1facts l hl).1
        · rcases List.mem_cons.mp hl with rfl | hl
          · intro hm
            rcases mem_mkRowStr _ '\n' hm with h | h | ⟨x, hx, hcx⟩
            · exact absurd h (by decide)
            · exact absurd h (by decide)
            · exact (hHstruct x hx).2.2 hcx
          · simp only [List.mem_singleton] at hl
            rw [hl]
            intro hm
            rcases mem_sepRowOf _ '\n' hm with h | h
            · exact absurd h (by decide)
            · exact absurd h (by decide)
      · obtain ⟨r, hr, rfl⟩ := List.mem_map.mp hl
        intro hm
        rcases mem_mkRowStr _ '\n' hm with h | h | ⟨x, hx, hcx⟩
        · exact absurd h (by decide)
        · exact absurd h (by decide)
        · exact (hRstruct r hr x hx).2.2 hcx
    · rcases List.mem_cons.mp hl with rfl | hl
      · simp
      rcases List.mem_cons.mp hl with rfl | hl
      · decide
      rcases List.mem_cons.mp hl with rfl | hl
      · exact histLine_no_nl Hh
      · simp only [List.mem_singleton] at hl
        rw [hl]
        decide
  have hsplitS : splitChar '\n' (serializeFile (parseContent content))
      = serializeLines (parseContent content) := by
    unfold serializeFile
    refine splitChar_joinSep '\n' _ ?_ hLnl
    rw [hSL]
    simp
  have hT2 : extractTable (splitChar '\n' (serializeFile (parseContent content)))
      = ⟨(extractTable (splitChar '\n' content)).headers,
         (extractTable (splitChar '\n' content)).rows⟩ := by
    rw [hsplitS, hSL]
    have hmap : (extractTable (splitChar '\n' content)).rows.map (fun r => mkRowStr r.1)
        = ((extractTable (splitChar '\n' content)).rows.map Prod.fst).map mkRowStr := by
      rw [List.map_map]
      rfl
    rw [hmap]
    have hscan := extractTable_serialized lines1 hPre1notrow
      (extractTable (splitChar '\n' content)).headers hHne
      (fun x hx => ⟨(hHstruct x hx).1, (hHstruct x hx).2.1⟩)
      ((extractTable (splitChar '\n' content)).rows.map Prod.fst)
      (fun r' hr' => by
        obtain ⟨r, hr, rfl⟩ := List.mem_map.mp hr'
        exact ⟨hRne r hr,
          fun x hx => ⟨(hRstruct r hr x hx).1, (hRstruct r hr x hx).2.1⟩,
          (hRfacts r hr).2.1⟩)
      [histLine Hh, "-->".data]
    rw [show lines1 ++ [mkRowStr (extractTable (splitChar '\n' content)).headers,
          sepRowOf (extractTable (splitChar '\n' content)).headers]
        ++ ((extractTable (splitChar '\n' content)).rows.map Prod.fst).map mkRowStr
        ++ [[], "<!-- QUIVER_METADATA".data, histLine Hh, "-->".data]
        = lines1 ++ [mkRowStr (extractTable (splitChar '\n' content)).headers,
            sepRowOf (extractTable (splitChar '\n' content)).headers]
          ++ ((extractTable (splitChar '\n' content)).rows.map Prod.fst).map mkRowStr
          ++ (([] : Str) :: "<!-- QUIVER_METADATA".data :: [histLine Hh, "-->".data])
        from rfl]
    rw [hscan, enumFrom_fst _ 0 hconsec]
  have hL1ne : (lines1 ++ [mkRowStr (extractTable (splitChar '\n' content)).headers,
        sepRowOf (extractTable (splitChar '\n' content)).headers]
      ++ (extractTable (splitChar '\n' content)).rows.map (fun r => mkRowStr r.1)) ≠ [] := by
    simp
  have hjj : joinSep ['\n']
      ((lines1 ++ [mkRowStr (extractTable (splitChar '\n' content)).headers,
          sepRowOf (extractTable (splitChar '\n' content)).headers]
        ++ (extractTable (splitChar '\n' content)).rows.map (fun r => mkRowStr r.1))
        ++ [[], []])
      = joinSep ['\n'] (lines1 ++ [mkRowStr (extractTable (splitChar '\n' content)).headers,
          sepRowOf (extractTable (splitChar '\n' content)).headers]
        ++ (extractTable (splitChar '\n' content)).rows.map (fun r => mkRowStr r.1))
        ++ ['\n', '\n'] := by
    rw [joinSep_append ['\n'] _ _ hL1ne (by simp)]
    simp [joinSep]
  have hAsub : containsSub "<!--".data
      (joinSep ['\n'] (lines1 ++ [mkRowStr (extractTable (splitChar '\n' content)).headers,
          sepRowOf (extractTable (splitChar '\n' content)).headers]
        ++ (extractTable (splitChar '\n' content)).rows.map (fun r => mkRowStr r.1))
        ++ ['\n', '\n']) = false := by
    rw [← hjj]
    refine containsSub_joinSep_false _ (by decide) '\n' (by decide) _ ?_
    intro l hl
    rcases List.mem_append.mp hl with hl | hl
    · rcases List.mem_append.mp hl with hl | hl
      · rcases List.mem_append.mp hl with hl | hl
        · exact (hPre1facts l hl).2
        · rcases List.mem_cons.mp hl with rfl | hl
          · exact containsSub_mkRowStr_false _ hHne (fun x hx => (hHhead x hx).2)
          · simp only [List.mem_singleton] at hl
            rw [hl]
            exact containsSub_sepRowOf_false _
      · obtain ⟨r, hr, rfl⟩ := List.mem_map.mp hl
        exact containsSub_mkRowStr_false _ (hRne r hr) (hRfacts r hr).2.2
    · rcases List.mem_cons.mp hl with rfl | hl
      · exact containsSub_nil_false _ (by decide)
      · simp only [List.mem_singleton] at hl
        rw [hl]
        exact containsSub_nil_false _ (by decide)
  have hAlast : ∀ h : (joinSep ['\n']
      (lines1 ++ [mkRowStr (extractTable (splitChar '\n' content)).headers,
          sepRowOf (extractTable (splitChar '\n' content)).headers]
        ++ (extractTable (splitChar '\n' content)).rows.map (fun r => mkRowStr r.1))
      ++ ['\n', '\n']) ≠ [],
      (joinSep ['\n'] (lines1 ++ [mkRowStr (extractTable (splitChar '\n' content)).headers,
          sepRowOf (extractTable (splitChar '\n' content)).headers]
        ++ (extractTable (splitChar '\n' content)).rows.map (fun r => mkRowStr r.1))
      ++ ['\n', '\n']).getLast h = '\n' := by
    intro h
    rw [← getLastD_eq_getLast _ ' ' h]
    rw [show joinSep ['\n'] (lines1 ++ [mkRowStr (extractTable (splitChar '\n' content)).headers,
          sepRowOf (extractTable (splitChar '\n' content)).headers]
        ++ (extractTable (splitChar '\n' content)).rows.map (fun r => mkRowStr r.1))
        ++ ['\n', '\n']
        = (joinSep ['\n'] (lines1 ++ [mkRowStr (extractTable (splitChar '\n' content)).headers,
            sepRowOf (extractTable (splitChar '\n' content)).headers]
          ++ (extractTable (splitChar '\n' content)).rows.map (fun r => mkRowStr r.1))
          ++ ['\n']) ++ ['\n'] from by simp]
    rw [List.getLastD_concat]
  have hSdecomp : serializeFile (parseContent content)
      = (joinSep ['\n'] (lines1 ++ [mkRowStr (extractTable (splitChar '\n' content)).headers,
            sepRowOf (extractTable (splitChar '\n' content)).headers]
          ++ (extractTable (splitChar '\n' content)).rows.map (fun r => mkRowStr r.1))
         ++ ['\n', '\n'])
        ++ ("<!-- QUIVER_METADATA".data ++ '\n' :: histLine Hh ++ '\n' :: "-->".data) := by
    unfold serializeFile
    rw [hSL]
    rw [show lines1 ++ [mkRowStr (extractTable (splitChar '\n' content)).headers,
          sepRowOf (extractTable (splitChar '\n' content)).headers]
        ++ (extractTable (splitChar '\n' content)).rows.map (fun r => mkRowStr r.1)
        ++ [[], "<!-- QUIVER_METADATA".data, histLine Hh, "-->".data]
        = (lines1 ++ [mkRowStr (extractTable (splitChar '\n' content)).headers,
            sepRowOf (extractTable (splitChar '\n' content)).headers]
          ++ (extractTable (splitChar '\n' content)).rows.map (fun r => mkRowStr r.1)
          ++ [[]])
          ++ ["<!-- QUIVER_METADATA".data, histLine Hh, "-->".data] from by
      simp [List.append_assoc]]
    rw [joinSep_append ['\n'] _ _ (by simp) (by simp)]
    rw [joinSep_concat_blank '\n' _ hL1ne]
    rw [show joinSep ['\n'] ["<!-- QUIVER_METADATA".data, histLine Hh, "-->".data]
        = "<!-- QUIVER_METADATA".data ++ '\n' :: (histLine Hh ++ '\n' :: "-->".data)
        from by simp [joinSep]]
    simp [List.append_assoc]
  have hfindS : findMeta (serializeFile (parseContent content)) = some (histLine Hh) := by
    rw [hSdecomp, findMeta_append _ _ hAsub hAlast]
    exact findMeta_block (histLine Hh) (histLine_ne_nil Hh)
      (fun a ha => by rw [histLine_head] at ha; cases ha; decide)
      (histLine_no_nl Hh)
  have hMeta2 : (parseContent (serializeFile (parseContent content))).metadata
      = ⟨some Hh, []⟩ := by
    show extractMetadata _ = _
    exact extractMetadata_histLine _ Hh hfindS
  refine ⟨?_, ?_, ?_⟩
  · show extractEntries
        (extractTable (splitChar '\n' (serializeFile (parseContent content)))).headers
        (extractTable (splitChar '\n' (serializeFile (parseContent content)))).rows
      = (parseContent content).entries
    rw [hT2]
    rfl
  · show (extractTable (splitChar '\n' (serializeFile (parseContent content)))).headers
      = (parseContent content).headers
    rw [hT2, hH]
  · rw [hMeta2, hmH]

/-- Witness for C1: the round trip on a concrete well-formed document. -/
theorem claim_C1_roundtrip_witness :
    wellFormedB tW = true
    ∧ ((parseContent (serializeFile (parseContent tW))).entries
          = (parseContent tW).entries
      ∧ (parseContent (serializeFile (parseContent tW))).headers
          = (parseContent tW).headers
      ∧ (parseContent (serializeFile (parseContent tW))).metadata.history
          = (parseContent tW).metadata.history) :=
  ⟨by decide, claim_C1_roundtrip tW (by decide)⟩

end Quiver
